import Mathlib

/-!
# Markov transition matrix (markov.c): embedding and verification

The C structure `Markov` owns a `size × size` table of `double` cells, a
per-row `int` update counter (`helper`) and its `size`.

Modelling conventions.

* The heap blocks `matrix` (rows of cells) and `helper` are lists.  A read is
  `rd`/`rdRow`, a write is `wr`/`List.set`; the loops are `for_loop`s over the
  same index ranges as in the source.
* A function taking `Markov*` returns its C result together with the state of
  every structure it was handed (explicit state passing).
* Indices and sizes are C `int`s that are only compared: they are integers
  (`Int`).
* `update_matrix` is embedded twice.
  - The exact model (`update_body`, `update_matrix`, `run_updates`): a cell is
    a rational number (`ℚ`) and the counter an unbounded integer, so `helper[i]++`
    and `alpha + 1` never wrap and no operation rounds.  It serves the
    statements made over exact arithmetic.  `x / 0` is `0` in `ℚ`.
  - The machine model (`update_body_m`, `update_matrix_m`, `run_updates_m`):
    the `int` results `helper[i]++` and `alpha + 1` wrap to 32 bits (`wrap32`),
    and each `double` operation (multiply, increment, divide) is rounded by a
    parameter `fl`; `fl = round_double` is IEEE-754 binary64 rounding to
    nearest, ties to even, and `fl = id` is exact arithmetic.  A division by
    zero is recorded as an event but its result (`inf`/`NaN`) is not
    modelled.
  The two models agree as long as no counter exceeds `2^31 - 1` and `fl = id`
  (`run_updates_m_exact`).
* `max_prob_idx`, `min_prob_idx` and `matrix_mult` have no `int` arithmetic;
  the comparisons of the scans are exact on cells of either model, and the
  sums and products of `matrix_mult` are over exact arithmetic.
-/

namespace MarkovLib

/-- The C struct `Markov` of markov.h: the cell table, the per-row update
counter and the size. -/
structure Markov where
  matrix : List (List ℚ)
  helper : List Int
  size : Int
deriving DecidableEq, Repr

/-- Heap shape produced by `initialize_M`: `size` rows of `size` cells and
`size` counters. -/
def wf (M : Markov) : Prop :=
  0 ≤ M.size ∧ M.matrix.length = M.size.toNat ∧
    (∀ r ∈ M.matrix, r.length = M.size.toNat) ∧ M.helper.length = M.size.toNat

instance (M : Markov) : Decidable (wf M) := by
  unfold wf
  infer_instance

/-- The row `m[i]` of a cell table. -/
def rdRow (m : List (List ℚ)) (i : Nat) : List ℚ := m.getD i []

/-- The read `m[i][k]`. -/
def rd (m : List (List ℚ)) (i k : Nat) : ℚ := (rdRow m i).getD k 0

/-- The write `m[i][k] = v`. -/
def wr (m : List (List ℚ)) (i k : Nat) (v : ℚ) : List (List ℚ) :=
  m.set i ((rdRow m i).set k v)

/-- The read `h[i]` of the counter array. -/
def rdH (h : List Int) (i : Nat) : Int := h.getD i 0

/-- The loop `for (int k = lo; k < hi; k++) body`, as a state transformer. -/
def for_loop {σ : Type} (lo hi : Nat) (body : Nat → σ → σ) (s : σ) : σ :=
  (List.range' lo (hi - lo)).foldl (fun acc k => body k acc) s

/-- Function `initialize_M` of markov.c, on the path where every allocation
succeeds: `size` rows from `calloc(size, sizeof(double))` and the counter
array from `calloc(size, sizeof(int))`. -/
def initialize_M (size : Int) : Markov :=
  { matrix := List.replicate size.toNat (List.replicate size.toNat 0)
    helper := List.replicate size.toNat 0
    size := size }

/-- One iteration of the loop of `update_matrix` over exact arithmetic:
`m[i][k] *= alpha`, then `m[i][k]++` when `k == j`, then
`m[i][k] = m[i][k] / (alpha + 1)`. -/
def update_body (i : Nat) (j : Int) (alpha : Int) (k : Nat)
    (m : List (List ℚ)) : List (List ℚ) :=
  let m1 := wr m i k (rd m i k * (alpha : ℚ))
  let m2 := if (k : Int) = j then wr m1 i k (rd m1 i k + 1) else m1
  wr m2 i k (rd m2 i k / ((alpha + 1 : Int) : ℚ))

/-- Function `update_matrix` of markov.c over exact arithmetic (exact cells,
unbounded counter): the return code and the structure after the call. -/
def update_matrix (M : Markov) (i j : Int) : Int × Markov :=
  if i ≥ M.size ∨ j ≥ M.size ∨ i < 0 ∨ j < 0 then (-1, M)
  else
    let alpha := rdH M.helper i.toNat
    let helper := M.helper.set i.toNat (alpha + 1)
    let matrix := for_loop 0 M.size.toNat (update_body i.toNat j alpha) M.matrix
    (0, { matrix := matrix, helper := helper, size := M.size })

/-- One iteration of the scan of `max_prob_idx` over the state
`(max_idx, max_val)`. -/
def max_body (m : List (List ℚ)) (i : Nat) (j : Nat) (s : Int × ℚ) : Int × ℚ :=
  if rd m i j > s.2 then ((j : Int), rd m i j) else s

/-- Function `max_prob_idx` of markov.c for a non-null `M` with a non-null
`M->matrix` (the first two disjuncts of its guard are then false): the
returned index and the structure after the call. -/
def max_prob_idx (M : Markov) (i : Int) : Int × Markov :=
  if i < 0 ∨ i ≥ M.size then (-1, M)
  else
    let s := for_loop 1 M.size.toNat (max_body M.matrix i.toNat)
      ((0 : Int), rd M.matrix i.toNat 0)
    (s.1, M)

/-- One iteration of the scan of `min_prob_idx` over the state
`(min_idx, min_val)`. -/
def min_body (m : List (List ℚ)) (i : Nat) (j : Nat) (s : Int × ℚ) : Int × ℚ :=
  if rd m i j < s.2 then ((j : Int), rd m i j) else s

/-- Function `min_prob_idx` of markov.c for a non-null `M` with a non-null
`M->matrix`: the returned index and the structure after the call. -/
def min_prob_idx (M : Markov) (i : Int) : Int × Markov :=
  if i < 0 ∨ i ≥ M.size then (-1, M)
  else
    let s := for_loop 1 M.size.toNat (min_body M.matrix i.toNat)
      ((0 : Int), rd M.matrix i.toNat 0)
    (s.1, M)

/-- The innermost statement of `matrix_mult`:
`result[i][j] += M1[i][k] * M2[k][j]`. -/
def mult_body (a b : List (List ℚ)) (i j k : Nat) (res : List (List ℚ)) :
    List (List ℚ) :=
  wr res i j (rd res i j + rd a i k * rd b k j)

/-- Function `matrix_mult` of markov.c: the returned structure (`none` is
`NULL`) and the two arguments after the call. -/
def matrix_mult (M1 M2 : Markov) : Option Markov × Markov × Markov :=
  if M1.size ≠ M2.size then (none, M1, M2)
  else
    let result := initialize_M M1.size
    let matrix :=
      for_loop 0 M1.size.toNat (fun i res =>
        for_loop 0 M2.size.toNat (fun j res =>
          for_loop 0 M1.size.toNat (mult_body M1.matrix M2.matrix i j) res) res)
        result.matrix
    (some { result with matrix := matrix }, M1, M2)

/-- A sequence of `update_matrix` calls, the return codes dropped as in the
driver. -/
def run_updates (M : Markov) (calls : List (Int × Int)) : Markov :=
  calls.foldl (fun acc c => (update_matrix acc c.1 c.2).2) M

/-- Count-keeping model: the number of calls with arguments `(i, k)`. -/
def count_pair (calls : List (Int × Int)) (i k : Int) : Nat :=
  calls.count (i, k)

/-- Count-keeping model: the number of calls with source row `i`. -/
def count_src (calls : List (Int × Int)) (i : Int) : Nat :=
  calls.countP (fun c => c.1 = i)

/-- Every call of the sequence has both indices in `[0, size)`. -/
def in_range (size : Int) (calls : List (Int × Int)) : Prop :=
  ∀ c ∈ calls, 0 ≤ c.1 ∧ c.1 < size ∧ 0 ≤ c.2 ∧ c.2 < size

instance (size : Int) (calls : List (Int × Int)) : Decidable (in_range size calls) := by
  unfold in_range
  infer_instance

/-- The value `update_matrix` leaves in a cell that held `x`: multiply by the
old count, add one in the target column, divide by the new count. -/
def new_cell (x : ℚ) (alpha : Int) (k j : Int) : ℚ :=
  (x * (alpha : ℚ) + (if k = j then 1 else 0)) / ((alpha + 1 : Int) : ℚ)

/-- A cell table of `n` rows of `n` cells. -/
def shaped (n : Nat) (m : List (List ℚ)) : Prop :=
  m.length = n ∧ ∀ r : Nat, r < n → (rdRow m r).length = n

/-- The dot product of row `i` of `a` and column `j` of `b` over the first
`n` indices. -/
def dot (a b : List (List ℚ)) (i j n : Nat) : ℚ :=
  ∑ k in Finset.range n, rd a i k * rd b k j

/-- The relation between a matrix reached by the calls `calls` and the
count-keeping model: each counter is the number of calls with that source and
each cell is the ratio of the two counts. -/
def counts_inv (size : Int) (calls : List (Int × Int)) (M : Markov) : Prop :=
  M.size = size ∧ shaped size.toNat M.matrix ∧ M.helper.length = size.toNat ∧
  (∀ r : Nat, r < size.toNat → rdH M.helper r = (count_src calls r : Int)) ∧
  ∀ r k : Nat, r < size.toNat → k < size.toNat →
    rd M.matrix r k = (count_pair calls r k : ℚ) / (count_src calls r : ℚ)

/-- A size-2 matrix whose row 0 was observed twice (once per column) and
whose row 1 was never observed. -/
def sample_M : Markov :=
  { matrix := [[1/2, 1/2], [0, 0]], helper := [2, 0], size := 2 }

/-- The fifteen `update_matrix` calls of the driver `main` of test_markov.c,
in order. -/
def scenario : List (Int × Int) :=
  [(0, 1), (1, 2), (2, 0), (0, 2), (1, 0), (2, 1), (0, 1), (1, 2), (2, 0),
   (0, 0), (1, 1), (2, 2), (0, 2), (1, 0), (2, 1)]

/-- The return codes of a sequence of `update_matrix` calls, each call made
on the structure left by the previous one. -/
def return_codes (M : Markov) : List (Int × Int) → List Int
  | [] => []
  | c :: cs => (update_matrix M c.1 c.2).1 :: return_codes (update_matrix M c.1 c.2).2 cs

/-- The guard of `update_matrix` passes on the call `c` for a structure of
size `size`. -/
def valid_call (size : Int) (c : Int × Int) : Bool :=
  decide (0 ≤ c.1 ∧ c.1 < size ∧ 0 ≤ c.2 ∧ c.2 < size)

/-- A matrix of probability rows: the cells are non-negative and the cells
of each row add up to 1. -/
def stochastic (M : Markov) : Prop :=
  ∀ i : Nat, i < M.size.toNat →
    (∀ k : Nat, k < M.size.toNat → 0 ≤ rd M.matrix i k) ∧
    (∑ k in Finset.range M.size.toNat, rd M.matrix i k) = 1

instance (M : Markov) : Decidable (stochastic M) := by
  unfold stochastic
  infer_instance

/-- A size-2 matrix of probability rows. -/
def sample_P : Markov :=
  { matrix := [[1/2, 1/2], [1/4, 3/4]], helper := [2, 4], size := 2 }

/-- Conversion of an `int` to `size_t` on an LP64 platform (64-bit
`size_t`): the value modulo `2^64`. -/
def to_size_t (n : Int) : Nat := (n % 18446744073709551616).toNat

/-- The byte count `size * sizeof(T)` handed to `malloc`, computed in
`size_t` (modulo `2^64`), for `sizeof(T) = elem`. -/
def malloc_bytes (size : Int) (elem : Nat) : Nat :=
  (to_size_t size * elem) % 18446744073709551616

/-- The call `calloc(nmemb, elem)` as request number `idx`: it fails when
`nmemb * elem` overflows `size_t`, and otherwise asks the allocator `alloc`
for `nmemb * elem` bytes. -/
def calloc_ok (alloc : Nat → Nat → Bool) (idx nmemb elem : Nat) : Bool :=
  decide (nmemb * elem < 18446744073709551616) && alloc idx (nmemb * elem)

/-- The row loop of `initialize_M`: row `i` is request number `2 + i`,
`calloc(size, sizeof(double))` with `sizeof(double) = 8`; a failed request
ends the process (`none`). -/
def alloc_rows (alloc : Nat → Nat → Bool) (size : Int) : Option (List (List ℚ)) :=
  for_loop 0 size.toNat
    (fun i st => st.bind (fun rows =>
      if calloc_ok alloc (2 + i) (to_size_t size) 8 = true
      then some (rows ++ [List.replicate size.toNat 0]) else none))
    (some [])

/-- Function `initialize_M` of markov.c with its allocation failures, on an
LP64 platform (`sizeof(Markov) = 24`, `sizeof(double*) = 8`,
`sizeof(double) = 8`, `sizeof(int) = 4`).  The allocator is the parameter
`alloc`: `alloc idx n` tells whether request number `idx` of the call, for `n`
bytes, is granted.  `none` is `exit(EXIT_FAILURE)`: the caller gets nothing
back. -/
def initialize_M_alloc (alloc : Nat → Nat → Bool) (size : Int) : Option Markov :=
  if alloc 0 24 = false then none
  else if alloc 1 (malloc_bytes size 8) = false then none
  else
    match alloc_rows alloc size with
    | none => none
    | some rows =>
      if calloc_ok alloc (2 + size.toNat) (to_size_t size) 4 = false then none
      else some { matrix := rows, helper := List.replicate size.toNat 0, size := size }

/-- An allocator that grants every request of at most `PTRDIFF_MAX`
(`2^63 - 1`) bytes, zero-byte requests included, and refuses the others. -/
def lenient_alloc (_idx n : Nat) : Bool := decide (n ≤ 9223372036854775807)

/-- What a run of the library does to memory and to the divider: an access
`obj->matrix[i][k]`, an access `obj->helper[i]`, or a division by `d`.  The
structure `obj` is 0 for the first argument, 1 for the second argument and 2
for the result of `matrix_mult`; the indices are the values of the C index
expressions. -/
inductive Event where
  | cell (obj : Nat) (i k : Int)
  | counter (obj : Nat) (i : Int)
  | divide (d : Int)
deriving DecidableEq, Repr

/-- An event is safe for structures of size `size`: every index lies in
`[0, size)` and a divisor is at least 1. -/
def event_ok (size : Int) : Event → Prop
  | Event.cell _ i k => 0 ≤ i ∧ i < size ∧ 0 ≤ k ∧ k < size
  | Event.counter _ i => 0 ≤ i ∧ i < size
  | Event.divide d => 1 ≤ d

instance (size : Int) (e : Event) : Decidable (event_ok size e) := by
  cases e <;> unfold event_ok <;> infer_instance

/-- One iteration of the scan of `max_prob_idx` with its events: the
comparison reads `m[i][j]`, and the assignment reads it again when the
comparison holds. -/
def max_body_tr (m : List (List ℚ)) (i : Int) (j : Nat) (s : (Int × ℚ) × List Event) :
    (Int × ℚ) × List Event :=
  (max_body m i.toNat j s.1,
   s.2 ++ [Event.cell 0 i j]
     ++ (if rd m i.toNat j > s.1.2 then [Event.cell 0 i j] else []))

/-- Function `max_prob_idx` of markov.c with the events of the call: the
read of `M->matrix[i][0]`, then the scan. -/
def max_prob_idx_tr (M : Markov) (i : Int) : (Int × Markov) × List Event :=
  if i < 0 ∨ i ≥ M.size then ((-1, M), [])
  else
    let s := for_loop 1 M.size.toNat (max_body_tr M.matrix i)
      (((0 : Int), rd M.matrix i.toNat 0), [Event.cell 0 i 0])
    ((s.1.1, M), s.2)

/-- One iteration of the scan of `min_prob_idx` with its events. -/
def min_body_tr (m : List (List ℚ)) (i : Int) (j : Nat) (s : (Int × ℚ) × List Event) :
    (Int × ℚ) × List Event :=
  (min_body m i.toNat j s.1,
   s.2 ++ [Event.cell 0 i j]
     ++ (if rd m i.toNat j < s.1.2 then [Event.cell 0 i j] else []))

/-- Function `min_prob_idx` of markov.c with the events of the call. -/
def min_prob_idx_tr (M : Markov) (i : Int) : (Int × Markov) × List Event :=
  if i < 0 ∨ i ≥ M.size then ((-1, M), [])
  else
    let s := for_loop 1 M.size.toNat (min_body_tr M.matrix i)
      (((0 : Int), rd M.matrix i.toNat 0), [Event.cell 0 i 0])
    ((s.1.1, M), s.2)

/-- The innermost statement of `matrix_mult` with its events: it reads
`M1[i][k]` and `M2[k][j]` and updates `result[i][j]`. -/
def mult_body_tr (a b : List (List ℚ)) (i j k : Nat) (s : List (List ℚ) × List Event) :
    List (List ℚ) × List Event :=
  (mult_body a b i j k s.1,
   s.2 ++ [Event.cell 0 i k, Event.cell 1 k j, Event.cell 2 i j])

/-- Function `matrix_mult` of markov.c with the events of its three nested
loops. -/
def matrix_mult_tr (M1 M2 : Markov) : (Option Markov × Markov × Markov) × List Event :=
  if M1.size ≠ M2.size then ((none, M1, M2), [])
  else
    let result := initialize_M M1.size
    let s :=
      for_loop 0 M1.size.toNat (fun i s =>
        for_loop 0 M2.size.toNat (fun j s =>
          for_loop 0 M1.size.toNat (mult_body_tr M1.matrix M2.matrix i j) s) s)
        (result.matrix, [])
    ((some { result with matrix := s.1 }, M1, M2), s.2)

/-- The value a C `int` holds after an arithmetic result `n` that may have
left the range: `n` reduced to 32-bit two's complement, in
`[-2^31, 2^31)`. -/
def wrap32 (n : Int) : Int := (n + 2147483648) % 4294967296 - 2147483648

/-- One iteration of the loop of `update_matrix` on the machine: as
`update_body`, with every `double` operation rounded by `fl` and the `int`
sum `alpha + 1` wrapped to 32 bits. -/
def update_body_m (fl : ℚ → ℚ) (i : Nat) (j : Int) (alpha : Int) (k : Nat)
    (m : List (List ℚ)) : List (List ℚ) :=
  let m1 := wr m i k (fl (rd m i k * (alpha : ℚ)))
  let m2 := if (k : Int) = j then wr m1 i k (fl (rd m1 i k + 1)) else m1
  wr m2 i k (fl (rd m2 i k / ((wrap32 (alpha + 1) : Int) : ℚ)))

/-- Function `update_matrix` of markov.c on the machine: the `int` counter
`helper[i]++` and the `int` sum `alpha + 1` wrap to 32 bits, and every
`double` operation is rounded by the parameter `fl` (`fl = id` is exact
arithmetic, `fl = round_double` is IEEE-754 binary64). -/
def update_matrix_m (fl : ℚ → ℚ) (M : Markov) (i j : Int) : Int × Markov :=
  if i ≥ M.size ∨ j ≥ M.size ∨ i < 0 ∨ j < 0 then (-1, M)
  else
    let alpha := rdH M.helper i.toNat
    let helper := M.helper.set i.toNat (wrap32 (alpha + 1))
    let matrix := for_loop 0 M.size.toNat (update_body_m fl i.toNat j alpha) M.matrix
    (0, { matrix := matrix, helper := helper, size := M.size })

/-- A sequence of `update_matrix` calls on the machine, the return codes
dropped as in the driver. -/
def run_updates_m (fl : ℚ → ℚ) (M : Markov) (calls : List (Int × Int)) : Markov :=
  calls.foldl (fun acc c => (update_matrix_m fl acc c.1 c.2).2) M

/-- The number of calls of a sequence on the machine that returned 0 and had
source row `i`. -/
def count_ok_m (fl : ℚ → ℚ) (M : Markov) : List (Int × Int) → Int → Nat
  | [], _ => 0
  | c :: cs, i =>
    (if (update_matrix_m fl M c.1 c.2).1 = 0 ∧ c.1 = i then 1 else 0)
      + count_ok_m fl (update_matrix_m fl M c.1 c.2).2 cs i

/-- The power `2^e` for an integer exponent. -/
def pow2 (e : Int) : ℚ :=
  if 0 ≤ e then (2 : ℚ) ^ e.toNat else 1 / (2 : ℚ) ^ (-e).toNat

/-- Binary logarithm by halving, with fuel. -/
def ilog2_aux : Nat → Nat → Nat
  | 0, _ => 0
  | fuel + 1, n => if n < 2 then 0 else ilog2_aux fuel (n / 2) + 1

/-- The integer binary logarithm `⌊log₂ n⌋` of `n ≥ 1` (0 for `n = 0`). -/
def ilog2 (n : Nat) : Nat := ilog2_aux n n

/-- The binade of a positive rational `a`: the exponent `e` with
`2^e ≤ a < 2^(e+1)`. -/
def binade (a : ℚ) : Int :=
  if pow2 ((ilog2 a.num.natAbs : Int) - (ilog2 a.den : Int)) ≤ a
  then (ilog2 a.num.natAbs : Int) - (ilog2 a.den : Int)
  else (ilog2 a.num.natAbs : Int) - (ilog2 a.den : Int) - 1

/-- Rounding of a rational to the nearest integer, ties to the even one. -/
def round_even (x : ℚ) : Int :=
  if x - (⌊x⌋ : ℚ) < 1 / 2 then ⌊x⌋
  else if 1 / 2 < x - (⌊x⌋ : ℚ) then ⌊x⌋ + 1
  else if ⌊x⌋ % 2 = 0 then ⌊x⌋ else ⌊x⌋ + 1

/-- The unit in the last place of a positive `double` result `a`: `2^(e - 52)`
for the binade `e` of `a`, with `e` held at `-1022` for subnormal results. -/
def ulp (a : ℚ) : ℚ := pow2 (max (binade a) (-1022) - 52)

/-- IEEE-754 binary64 rounding (round to nearest, ties to even) of the exact
result `q` of a `double` operation: the magnitude of `q` is rounded to the
nearest multiple of its unit in the last place, ties to the even multiple.
Overflow to infinity (magnitudes from `2^1024` on) is not modelled. -/
def round_double (q : ℚ) : ℚ :=
  if q = 0 then 0
  else if 0 < q then (round_even (q / ulp q) : ℚ) * ulp q
  else -((round_even (-q / ulp (-q)) : ℚ) * ulp (-q))

/-- The relation between a matrix reached on the machine by the in-range
calls `calls` and the counts: each counter is the number of calls with that
source, wrapped to 32 bits. -/
def machine_inv (size : Int) (calls : List (Int × Int)) (M : Markov) : Prop :=
  M.size = size ∧ shaped size.toNat M.matrix ∧ M.helper.length = size.toNat ∧
  ∀ r : Nat, r < size.toNat → rdH M.helper r = wrap32 (count_src calls r)

/-- An event indexes inside structures of size `size`: every index of an
access lies in `[0, size)`; a division indexes nothing. -/
def index_ok (size : Int) : Event → Prop
  | Event.cell _ i k => 0 ≤ i ∧ i < size ∧ 0 ≤ k ∧ k < size
  | Event.counter _ i => 0 ≤ i ∧ i < size
  | Event.divide _ => True

instance (size : Int) (e : Event) : Decidable (index_ok size e) := by
  cases e <;> unfold index_ok <;> infer_instance

/-- One iteration of the loop of `update_matrix` on the machine with its
events: `m[i][k] *= alpha` touches the cell, `m[i][k]++` touches it when
`k == j`, and `m[i][k] = m[i][k] / (alpha + 1)` reads it, divides by the
wrapped `int` sum `alpha + 1` and writes it. -/
def update_body_m_tr (fl : ℚ → ℚ) (i j alpha : Int) (k : Nat)
    (s : List (List ℚ) × List Event) : List (List ℚ) × List Event :=
  (update_body_m fl i.toNat j alpha k s.1,
   s.2 ++ [Event.cell 0 i k]
     ++ (if (k : Int) = j then [Event.cell 0 i k] else [])
     ++ [Event.cell 0 i k, Event.divide (wrap32 (alpha + 1)), Event.cell 0 i k])

/-- Function `update_matrix` of markov.c on the machine with the events of
the call, in order: `M->helper[i]++` first, then the loop. -/
def update_matrix_m_tr (fl : ℚ → ℚ) (M : Markov) (i j : Int) :
    (Int × Markov) × List Event :=
  if i ≥ M.size ∨ j ≥ M.size ∨ i < 0 ∨ j < 0 then ((-1, M), [])
  else
    let alpha := rdH M.helper i.toNat
    let helper := M.helper.set i.toNat (wrap32 (alpha + 1))
    let s := for_loop 0 M.size.toNat (update_body_m_tr fl i j alpha)
      (M.matrix, [Event.counter 0 i])
    ((0, { matrix := s.1, helper := helper, size := M.size }), s.2)

/-- Fourteen transitions 0 → 1 followed by fourteen transitions 0 → 0: the
two columns of row 0 end with the same count. -/
def tie_calls : List (Int × Int) :=
  List.replicate 14 (0, 1) ++ List.replicate 14 (0, 0)

/-! ## Reads, writes and loops -/

theorem for_loop_empty {σ : Type} (lo : Nat) (body : Nat → σ → σ) (s : σ) :
    for_loop lo lo body s = s := by
  simp [for_loop]

theorem for_loop_succ {σ : Type} (lo hi : Nat) (h : lo ≤ hi) (body : Nat → σ → σ)
    (s : σ) : for_loop lo (hi + 1) body s = body hi (for_loop lo hi body s) := by
  unfold for_loop
  have e : hi + 1 - lo = (hi - lo) + 1 := by omega
  rw [e, List.range'_concat, List.foldl_append]
  have e2 : lo + (hi - lo) = hi := by omega
  simp [e2]

theorem wr_length (m : List (List ℚ)) (i k : Nat) (v : ℚ) :
    (wr m i k v).length = m.length := by
  simp [wr]

theorem rdRow_wr_ne (m : List (List ℚ)) (i k r : Nat) (v : ℚ) (h : r ≠ i) :
    rdRow (wr m i k v) r = rdRow m r := by
  simp [rdRow, wr, List.getElem?_set, Ne.symm h]

theorem rdRow_wr_length (m : List (List ℚ)) (i k r : Nat) (v : ℚ) :
    (rdRow (wr m i k v) r).length = (rdRow m r).length := by
  by_cases h : r = i
  · subst h
    by_cases hr : r < m.length
    · simp [rdRow, wr, List.getElem?_set, hr]
    · have hn : m[r]? = none := List.getElem?_eq_none (by omega)
      simp [rdRow, wr, List.getElem?_set, hr, hn]
  · rw [rdRow_wr_ne m i k r v h]

theorem rd_wr_same (m : List (List ℚ)) (i k : Nat) (v : ℚ) (hi : i < m.length)
    (hk : k < (rdRow m i).length) : rd (wr m i k v) i k = v := by
  simp [rd, rdRow, wr, List.getElem?_set, hi] at hk ⊢
  simp [hk]

theorem rd_wr_other (m : List (List ℚ)) (i k r c : Nat) (v : ℚ)
    (h : ¬ (r = i ∧ c = k)) : rd (wr m i k v) r c = rd m r c := by
  by_cases hr : r = i
  · subst hr
    have hc : k ≠ c := fun e => h ⟨rfl, e.symm⟩
    by_cases hl : r < m.length
    · simp [rd, rdRow, wr, List.getElem?_set, hl, hc]
    · have hn : m[r]? = none := List.getElem?_eq_none (by omega)
      simp [rd, rdRow, wr, List.getElem?_set, hl, hn]
  · simp [rd, rdRow_wr_ne m i k r v hr]

/-! ## The update loop -/

theorem update_body_length (i : Nat) (j alpha : Int) (k : Nat) (m : List (List ℚ)) :
    (update_body i j alpha k m).length = m.length := by
  unfold update_body
  split <;> simp [wr_length]

theorem update_body_rdRow_length (i : Nat) (j alpha : Int) (k r : Nat)
    (m : List (List ℚ)) :
    (rdRow (update_body i j alpha k m) r).length = (rdRow m r).length := by
  unfold update_body
  split <;> simp [rdRow_wr_length]

theorem update_body_rdRow_ne (i : Nat) (j alpha : Int) (k r : Nat)
    (m : List (List ℚ)) (h : r ≠ i) :
    rdRow (update_body i j alpha k m) r = rdRow m r := by
  unfold update_body
  split <;> simp [rdRow_wr_ne _ _ _ _ _ h]

theorem update_body_other (i : Nat) (j alpha : Int) (k r c : Nat)
    (m : List (List ℚ)) (h : ¬ (r = i ∧ c = k)) :
    rd (update_body i j alpha k m) r c = rd m r c := by
  unfold update_body
  split <;> simp [rd_wr_other _ _ _ _ _ _ h]

theorem update_body_same (i : Nat) (j alpha : Int) (k : Nat) (m : List (List ℚ))
    (hi : i < m.length) (hk : k < (rdRow m i).length) :
    rd (update_body i j alpha k m) i k = new_cell (rd m i k) alpha k j := by
  unfold update_body new_cell
  by_cases hj : (k : Int) = j
  · simp only [hj, if_true]
    rw [rd_wr_same, rd_wr_same, rd_wr_same] <;>
      simp [wr_length, rdRow_wr_length, hi, hk]
  · simp only [hj, if_false]
    rw [rd_wr_same, rd_wr_same] <;>
      simp [wr_length, rdRow_wr_length, hi, hk]

theorem update_loop_length (i : Nat) (j alpha : Int) (m : List (List ℚ)) (t : Nat) :
    (for_loop 0 t (update_body i j alpha) m).length = m.length := by
  induction t with
  | zero => rw [for_loop_empty]
  | succ t ih => rw [for_loop_succ 0 t (Nat.zero_le t), update_body_length, ih]

theorem update_loop_rdRow_length (i : Nat) (j alpha : Int) (m : List (List ℚ))
    (t r : Nat) :
    (rdRow (for_loop 0 t (update_body i j alpha) m) r).length = (rdRow m r).length := by
  induction t with
  | zero => rw [for_loop_empty]
  | succ t ih => rw [for_loop_succ 0 t (Nat.zero_le t), update_body_rdRow_length, ih]

theorem update_loop_rdRow_ne (i : Nat) (j alpha : Int) (m : List (List ℚ))
    (t r : Nat) (h : r ≠ i) :
    rdRow (for_loop 0 t (update_body i j alpha) m) r = rdRow m r := by
  induction t with
  | zero => rw [for_loop_empty]
  | succ t ih => rw [for_loop_succ 0 t (Nat.zero_le t), update_body_rdRow_ne _ _ _ _ _ _ h, ih]

/-- Loop invariant of `update_matrix`: after the iterations `k < t` the
columns below `t` of row `i` hold their new value and the others their old
one. -/
theorem update_loop_row (i : Nat) (j alpha : Int) (m : List (List ℚ))
    (hi : i < m.length) (t : Nat) (ht : t ≤ (rdRow m i).length) (c : Nat) :
    rd (for_loop 0 t (update_body i j alpha) m) i c =
      if c < t then new_cell (rd m i c) alpha c j else rd m i c := by
  induction t with
  | zero => simp [for_loop_empty]
  | succ t ih =>
    have ih2 := ih (by omega)
    rw [for_loop_succ 0 t (Nat.zero_le t)]
    by_cases hc : c = t
    · subst hc
      rw [update_body_same, ih2]
      · simp
      · rw [update_loop_length]; exact hi
      · rw [update_loop_rdRow_length]; omega
    · rw [update_body_other _ _ _ _ _ _ _ (fun h => hc h.2), ih2]
      by_cases h1 : c < t
      · simp [h1, Nat.lt_succ_of_lt h1]
      · have h2 : ¬ c < t + 1 := by omega
        simp [h1, h2]

/-! ## update_matrix -/

theorem update_matrix_ok (M : Markov) (i j : Int) (hi0 : 0 ≤ i) (hi : i < M.size)
    (hj0 : 0 ≤ j) (hj : j < M.size) :
    update_matrix M i j =
      (0, { matrix := for_loop 0 M.size.toNat
                        (update_body i.toNat j (rdH M.helper i.toNat)) M.matrix
            helper := M.helper.set i.toNat (rdH M.helper i.toNat + 1)
            size := M.size }) := by
  have h : ¬ (i ≥ M.size ∨ j ≥ M.size ∨ i < 0 ∨ j < 0) := by omega
  simp only [update_matrix, h, if_false]

theorem update_matrix_err (M : Markov) (i j : Int)
    (h : i < 0 ∨ i ≥ M.size ∨ j < 0 ∨ j ≥ M.size) : update_matrix M i j = (-1, M) := by
  have h2 : i ≥ M.size ∨ j ≥ M.size ∨ i < 0 ∨ j < 0 := by omega
  simp only [update_matrix, h2, if_true]

theorem wf_rdRow_length (M : Markov) (hwf : wf M) (r : Nat) (hr : r < M.size.toNat) :
    (rdRow M.matrix r).length = M.size.toNat := by
  obtain ⟨_, hlen, hrows, _⟩ := hwf
  have hr2 : r < M.matrix.length := by omega
  have e : rdRow M.matrix r = M.matrix[r] := by
    simp [rdRow, List.getElem?_eq_getElem hr2]
  rw [e]
  exact hrows _ (List.getElem_mem hr2)

/-- C4: `update_matrix` returns -1 exactly when `i` or `j` is outside
`[0, size)`, and then the structure (cells, counters, size) is returned
unchanged; in particular `update_matrix(M, size, 0)` returns -1 and changes
nothing. -/
theorem update_matrix_invalid (M : Markov) (i j : Int) :
    ((update_matrix M i j).1 = -1 ↔ (i < 0 ∨ i ≥ M.size ∨ j < 0 ∨ j ≥ M.size)) ∧
    ((i < 0 ∨ i ≥ M.size ∨ j < 0 ∨ j ≥ M.size) → (update_matrix M i j).2 = M) ∧
    update_matrix M M.size 0 = (-1, M) := by
  refine ⟨⟨?_, ?_⟩, ?_, ?_⟩
  · intro h
    by_contra hc
    rw [update_matrix_ok M i j (by omega) (by omega) (by omega) (by omega)] at h
    simp at h
  · intro h
    rw [update_matrix_err M i j h]
  · intro h
    rw [update_matrix_err M i j h]
  · exact update_matrix_err M M.size 0 (by omega)

/-- Witness for C4: row index `size` on the sample matrix. -/
theorem update_matrix_invalid_witness :
    (update_matrix sample_M 2 0).1 = -1 ∧ (update_matrix sample_M 2 0).2 = sample_M :=
  ⟨(update_matrix_invalid sample_M 2 0).1.2 (by decide),
   (update_matrix_invalid sample_M 2 0).2.1 (by decide)⟩

/-- C5: a successful `update_matrix(M, i, j)` leaves `size`, every counter
`helper[r]` and every cell `matrix[r][k]` of every row `r ≠ i` unchanged. -/
theorem update_matrix_frame (M : Markov) (i j : Int)
    (hok : (update_matrix M i j).1 = 0) :
    (update_matrix M i j).2.size = M.size ∧
    ∀ r : Nat, (r : Int) ≠ i →
      rdH (update_matrix M i j).2.helper r = rdH M.helper r ∧
      rdRow (update_matrix M i j).2.matrix r = rdRow M.matrix r ∧
      ∀ k : Nat, rd (update_matrix M i j).2.matrix r k = rd M.matrix r k := by
  have hin : ¬ (i < 0 ∨ i ≥ M.size ∨ j < 0 ∨ j ≥ M.size) := by
    intro h
    rw [update_matrix_err M i j h] at hok
    simp at hok
  rw [update_matrix_ok M i j (by omega) (by omega) (by omega) (by omega)]
  refine ⟨rfl, ?_⟩
  intro r hr
  have hne : r ≠ i.toNat := by omega
  have hrow := update_loop_rdRow_ne i.toNat j (rdH M.helper i.toNat) M.matrix
    M.size.toNat r hne
  refine ⟨?_, hrow, ?_⟩
  · simp [rdH, List.getElem?_set, Ne.symm hne]
  · intro k
    simp only [rd, hrow]

/-- Witness for C5: updating row 0 of the sample matrix leaves row 1 alone. -/
theorem update_matrix_frame_witness :
    (update_matrix sample_M 0 1).1 = 0 ∧
    (update_matrix sample_M 0 1).2.size = sample_M.size ∧
    ∀ r : Nat, (r : Int) ≠ 0 →
      rdH (update_matrix sample_M 0 1).2.helper r = rdH sample_M.helper r ∧
      rdRow (update_matrix sample_M 0 1).2.matrix r = rdRow sample_M.matrix r ∧
      ∀ k : Nat, rd (update_matrix sample_M 0 1).2.matrix r k = rd sample_M.matrix r k :=
  ⟨by decide, update_matrix_frame sample_M 0 1 (by decide)⟩

/-! ## Row extrema -/

/-- Invariant of the scan of `max_prob_idx` after the columns below `t`:
the state holds the leftmost maximum of that prefix. -/
theorem max_scan_inv (m : List (List ℚ)) (i t : Nat) (ht : 1 ≤ t) :
    0 ≤ (for_loop 1 t (max_body m i) ((0 : Int), rd m i 0)).1 ∧
    (for_loop 1 t (max_body m i) ((0 : Int), rd m i 0)).1 < (t : Int) ∧
    (for_loop 1 t (max_body m i) ((0 : Int), rd m i 0)).2 =
      rd m i (for_loop 1 t (max_body m i) ((0 : Int), rd m i 0)).1.toNat ∧
    (∀ k : Nat, k < t →
      rd m i k ≤ (for_loop 1 t (max_body m i) ((0 : Int), rd m i 0)).2) ∧
    (∀ k : Nat, (k : Int) < (for_loop 1 t (max_body m i) ((0 : Int), rd m i 0)).1 →
      rd m i k < (for_loop 1 t (max_body m i) ((0 : Int), rd m i 0)).2) := by
  induction t, ht using Nat.le_induction with
  | base =>
    rw [for_loop_empty]
    refine ⟨le_refl _, by simp, rfl, ?_, ?_⟩
    · intro k hk
      have : k = 0 := by omega
      subst this
      exact le_refl _
    · intro k hk
      simp only at hk
      omega
  | succ t ht ih =>
    rw [for_loop_succ 1 t ht]
    generalize for_loop 1 t (max_body m i) ((0 : Int), rd m i 0) = s at ih ⊢
    obtain ⟨h0, h1, h2, h3, h4⟩ := ih
    unfold max_body
    by_cases hgt : rd m i t > s.2
    · simp only [hgt, if_true]
      refine ⟨by omega, by push_cast; omega, by simp, ?_, ?_⟩
      · intro k hk
        by_cases hkt : k = t
        · subst hkt; exact le_refl _
        · exact le_of_lt (lt_of_le_of_lt (h3 k (by omega)) hgt)
      · intro k hk
        exact lt_of_le_of_lt (h3 k (by omega)) hgt
    · simp only [hgt, if_false]
      refine ⟨h0, by push_cast; omega, h2, ?_, h4⟩
      intro k hk
      by_cases hkt : k = t
      · subst hkt; exact not_lt.mp hgt
      · exact h3 k (by omega)

/-- Invariant of the scan of `min_prob_idx` after the columns below `t`:
the state holds the leftmost minimum of that prefix. -/
theorem min_scan_inv (m : List (List ℚ)) (i t : Nat) (ht : 1 ≤ t) :
    0 ≤ (for_loop 1 t (min_body m i) ((0 : Int), rd m i 0)).1 ∧
    (for_loop 1 t (min_body m i) ((0 : Int), rd m i 0)).1 < (t : Int) ∧
    (for_loop 1 t (min_body m i) ((0 : Int), rd m i 0)).2 =
      rd m i (for_loop 1 t (min_body m i) ((0 : Int), rd m i 0)).1.toNat ∧
    (∀ k : Nat, k < t →
      (for_loop 1 t (min_body m i) ((0 : Int), rd m i 0)).2 ≤ rd m i k) ∧
    (∀ k : Nat, (k : Int) < (for_loop 1 t (min_body m i) ((0 : Int), rd m i 0)).1 →
      (for_loop 1 t (min_body m i) ((0 : Int), rd m i 0)).2 < rd m i k) := by
  induction t, ht using Nat.le_induction with
  | base =>
    rw [for_loop_empty]
    refine ⟨le_refl _, by simp, rfl, ?_, ?_⟩
    · intro k hk
      have : k = 0 := by omega
      subst this
      exact le_refl _
    · intro k hk
      simp only at hk
      omega
  | succ t ht ih =>
    rw [for_loop_succ 1 t ht]
    generalize for_loop 1 t (min_body m i) ((0 : Int), rd m i 0) = s at ih ⊢
    obtain ⟨h0, h1, h2, h3, h4⟩ := ih
    unfold min_body
    by_cases hlt : rd m i t < s.2
    · simp only [hlt, if_true]
      refine ⟨by omega, by push_cast; omega, by simp, ?_, ?_⟩
      · intro k hk
        by_cases hkt : k = t
        · subst hkt; exact le_refl _
        · exact le_of_lt (lt_of_lt_of_le hlt (h3 k (by omega)))
      · intro k hk
        exact lt_of_lt_of_le hlt (h3 k (by omega))
    · simp only [hlt, if_false]
      refine ⟨h0, by push_cast; omega, h2, ?_, h4⟩
      intro k hk
      by_cases hkt : k = t
      · subst hkt; exact not_lt.mp hlt
      · exact h3 k (by omega)

theorem max_prob_idx_ok (M : Markov) (i : Int) (hi0 : 0 ≤ i) (hi : i < M.size) :
    max_prob_idx M i =
      ((for_loop 1 M.size.toNat (max_body M.matrix i.toNat)
          ((0 : Int), rd M.matrix i.toNat 0)).1, M) := by
  have h : ¬ (i < 0 ∨ i ≥ M.size) := by omega
  simp only [max_prob_idx, h, if_false]

theorem min_prob_idx_ok (M : Markov) (i : Int) (hi0 : 0 ≤ i) (hi : i < M.size) :
    min_prob_idx M i =
      ((for_loop 1 M.size.toNat (min_body M.matrix i.toNat)
          ((0 : Int), rd M.matrix i.toNat 0)).1, M) := by
  have h : ¬ (i < 0 ∨ i ≥ M.size) := by omega
  simp only [min_prob_idx, h, if_false]

/-- C8: `max_prob_idx` and `min_prob_idx` return -1 exactly when the row
index is outside `[0, size)` (in particular for `-1` and `size`), and both
return the structure unchanged. -/
theorem prob_idx_invalid (M : Markov) (i : Int) :
    ((max_prob_idx M i).1 = -1 ↔ (i < 0 ∨ i ≥ M.size)) ∧
    ((min_prob_idx M i).1 = -1 ↔ (i < 0 ∨ i ≥ M.size)) ∧
    (max_prob_idx M i).2 = M ∧ (min_prob_idx M i).2 = M ∧
    (max_prob_idx M (-1)).1 = -1 ∧ (max_prob_idx M M.size).1 = -1 ∧
    (min_prob_idx M (-1)).1 = -1 ∧ (min_prob_idx M M.size).1 = -1 := by
  have emax : ∀ x : Int, (x < 0 ∨ x ≥ M.size) → max_prob_idx M x = (-1, M) := by
    intro x h
    simp only [max_prob_idx, h, if_true]
  have emin : ∀ x : Int, (x < 0 ∨ x ≥ M.size) → min_prob_idx M x = (-1, M) := by
    intro x h
    simp only [min_prob_idx, h, if_true]
  refine ⟨⟨?_, fun h => by rw [emax i h]⟩, ⟨?_, fun h => by rw [emin i h]⟩, ?_, ?_,
    by rw [emax (-1) (by omega)], by rw [emax M.size (by omega)],
    by rw [emin (-1) (by omega)], by rw [emin M.size (by omega)]⟩
  · intro h
    by_contra hc
    rw [max_prob_idx_ok M i (by omega) (by omega)] at h
    have := (max_scan_inv M.matrix i.toNat M.size.toNat (by omega)).1
    simp only at h
    omega
  · intro h
    by_contra hc
    rw [min_prob_idx_ok M i (by omega) (by omega)] at h
    have := (min_scan_inv M.matrix i.toNat M.size.toNat (by omega)).1
    simp only at h
    omega
  · by_cases h : i < 0 ∨ i ≥ M.size
    · rw [emax i h]
    · rw [max_prob_idx_ok M i (by omega) (by omega)]
  · by_cases h : i < 0 ∨ i ≥ M.size
    · rw [emin i h]
    · rw [min_prob_idx_ok M i (by omega) (by omega)]

/-! ## Matrix multiplication -/

theorem shaped_wr (n : Nat) (m : List (List ℚ)) (i k : Nat) (v : ℚ)
    (h : shaped n m) : shaped n (wr m i k v) :=
  ⟨by rw [wr_length]; exact h.1, fun r hr => by rw [rdRow_wr_length]; exact h.2 r hr⟩

theorem shaped_rows (n : Nat) (m : List (List ℚ)) (h : shaped n m) :
    ∀ r ∈ m, r.length = n := by
  intro r hr
  obtain ⟨idx, hidx, e⟩ := List.mem_iff_getElem.mp hr
  have := h.2 idx (by rw [← h.1]; exact hidx)
  simpa [rdRow, List.getElem?_eq_getElem hidx, e] using this

theorem shaped_fresh (n : Int) : shaped n.toNat (initialize_M n).matrix := by
  refine ⟨by simp [initialize_M], ?_⟩
  intro r hr
  simp [initialize_M, rdRow, List.getElem?_replicate, hr]

theorem rd_fresh (n : Int) (r c : Nat) : rd (initialize_M n).matrix r c = 0 := by
  by_cases hr : r < n.toNat
  · by_cases hc : c < n.toNat
    · simp [initialize_M, rd, rdRow, List.getElem?_replicate, hr, hc]
    · simp [initialize_M, rd, rdRow, List.getElem?_replicate, hr, hc]
  · simp [initialize_M, rd, rdRow, List.getElem?_replicate, hr]

/-- The `k` loop of `matrix_mult` adds the dot product to cell `[i][j]` and
touches no other cell. -/
theorem mult_k_loop (a b res : List (List ℚ)) (n i j : Nat) (hs : shaped n res)
    (hi : i < n) (hj : j < n) (t : Nat) :
    shaped n (for_loop 0 t (mult_body a b i j) res) ∧
    ∀ r c : Nat, rd (for_loop 0 t (mult_body a b i j) res) r c =
      if r = i ∧ c = j then rd res i j + dot a b i j t else rd res r c := by
  induction t with
  | zero =>
    rw [for_loop_empty]
    refine ⟨hs, fun r c => ?_⟩
    by_cases h : r = i ∧ c = j
    · simp [h, dot]
    · simp [h]
  | succ t ih =>
    rw [for_loop_succ 0 t (Nat.zero_le t)]
    generalize for_loop 0 t (mult_body a b i j) res = L at ih ⊢
    obtain ⟨hL, hrd⟩ := ih
    unfold mult_body
    refine ⟨shaped_wr n L i j _ hL, fun r c => ?_⟩
    by_cases h : r = i ∧ c = j
    · obtain ⟨hr, hc⟩ := h
      subst hr hc
      rw [rd_wr_same L r c _ (by rw [hL.1]; exact hi) (by rw [hL.2 r hi]; exact hj), hrd]
      simp [dot, Finset.sum_range_succ, add_assoc]
    · rw [rd_wr_other L i j r c _ h, hrd]
      simp only [h, if_false]

/-- The `j` loop of `matrix_mult` adds the dot products to the cells of row
`i` in the columns below `t`. -/
theorem mult_j_loop (a b res : List (List ℚ)) (n nk i : Nat) (hs : shaped n res)
    (hi : i < n) (t : Nat) (ht : t ≤ n) :
    shaped n (for_loop 0 t (fun j r => for_loop 0 nk (mult_body a b i j) r) res) ∧
    ∀ r c : Nat,
      rd (for_loop 0 t (fun j r => for_loop 0 nk (mult_body a b i j) r) res) r c =
        if r = i ∧ c < t then rd res i c + dot a b i c nk else rd res r c := by
  induction t with
  | zero =>
    rw [for_loop_empty]
    exact ⟨hs, fun r c => by simp⟩
  | succ t ih =>
    rw [for_loop_succ 0 t (Nat.zero_le t)]
    obtain ⟨hL, hrd⟩ := ih (by omega)
    generalize for_loop 0 t (fun j r => for_loop 0 nk (mult_body a b i j) r) res = L
      at hL hrd ⊢
    obtain ⟨hK, hk⟩ := mult_k_loop a b L n i t hL hi (by omega) nk
    refine ⟨hK, fun r c => ?_⟩
    rw [hk, hrd, hrd]
    by_cases hr : r = i
    · subst hr
      by_cases hc : c = t
      · subst hc
        simp
      · by_cases hc2 : c < t
        · simp [hc, hc2, Nat.lt_succ_of_lt hc2]
        · have : ¬ c < t + 1 := by omega
          simp [hc, hc2, this]
    · simp [hr]

/-- The `i` loop of `matrix_mult` adds the dot products to the cells of the
rows below `t`. -/
theorem mult_i_loop (a b res : List (List ℚ)) (n nk : Nat) (hs : shaped n res)
    (t : Nat) (ht : t ≤ n) :
    shaped n (for_loop 0 t (fun i r =>
      for_loop 0 n (fun j r => for_loop 0 nk (mult_body a b i j) r) r) res) ∧
    ∀ r c : Nat,
      rd (for_loop 0 t (fun i r =>
        for_loop 0 n (fun j r => for_loop 0 nk (mult_body a b i j) r) r) res) r c =
        if r < t ∧ c < n then rd res r c + dot a b r c nk else rd res r c := by
  induction t with
  | zero =>
    rw [for_loop_empty]
    exact ⟨hs, fun r c => by simp⟩
  | succ t ih =>
    rw [for_loop_succ 0 t (Nat.zero_le t)]
    obtain ⟨hL, hrd⟩ := ih (by omega)
    generalize for_loop 0 t (fun i r =>
      for_loop 0 n (fun j r => for_loop 0 nk (mult_body a b i j) r) r) res = L
      at hL hrd ⊢
    obtain ⟨hJ, hj⟩ := mult_j_loop a b L n nk t hL (by omega) n (le_refl n)
    refine ⟨hJ, fun r c => ?_⟩
    rw [hj, hrd, hrd]
    by_cases hr : r = t
    · subst hr
      by_cases hc : c < n
      · simp [hc]
      · simp [hc]
    · by_cases hr2 : r < t
      · by_cases hc : c < n
        · simp [hr, hr2, hc, Nat.lt_succ_of_lt hr2]
        · simp [hr, hc]
      · have : ¬ r < t + 1 := by omega
        simp [hr, hr2, this]

theorem matrix_mult_ok (M1 M2 : Markov) (hsz : M1.size = M2.size) :
    matrix_mult M1 M2 =
      (some { matrix := for_loop 0 M1.size.toNat (fun i res =>
                for_loop 0 M1.size.toNat (fun j res =>
                  for_loop 0 M1.size.toNat (mult_body M1.matrix M2.matrix i j) res) res)
                (initialize_M M1.size).matrix
              helper := (initialize_M M1.size).helper
              size := M1.size }, M1, M2) := by
  have h : ¬ (M1.size ≠ M2.size) := by simp [hsz]
  unfold matrix_mult
  rw [if_neg h, ← hsz]
  rfl

theorem matrix_mult_err (M1 M2 : Markov) (hsz : M1.size ≠ M2.size) :
    matrix_mult M1 M2 = (none, M1, M2) := by
  unfold matrix_mult
  rw [if_pos hsz]

/-- C9: for two matrices of equal size `n`, `matrix_mult` returns a new
well-formed matrix of size `n` whose cell `[i][j]` is the sum over `k < n` of
`M1[i][k] * M2[k][j]` and whose counters are all zero. -/
theorem matrix_mult_spec (M1 M2 : Markov) (hwf : wf M1) (hsz : M1.size = M2.size) :
    ∃ res : Markov, (matrix_mult M1 M2).1 = some res ∧ wf res ∧
      res.size = M1.size ∧
      res.helper = List.replicate M1.size.toNat 0 ∧
      ∀ i j : Nat, i < M1.size.toNat → j < M1.size.toNat →
        rd res.matrix i j =
          ∑ k in Finset.range M1.size.toNat, rd M1.matrix i k * rd M2.matrix k j := by
  rw [matrix_mult_ok M1 M2 hsz]
  obtain ⟨hS, hrd⟩ := mult_i_loop M1.matrix M2.matrix (initialize_M M1.size).matrix
    M1.size.toNat M1.size.toNat (shaped_fresh M1.size) M1.size.toNat (le_refl _)
  refine ⟨_, rfl, ⟨hwf.1, hS.1, shaped_rows _ _ hS, ?_⟩, rfl, rfl, ?_⟩
  · simp [initialize_M]
  · intro i j hi hj
    simp only [hrd, hi, hj, and_self, if_true, rd_fresh, zero_add, dot]

/-- Witness for C9: the sample matrix multiplied by itself. -/
theorem matrix_mult_spec_witness :
    wf sample_M ∧ sample_M.size = sample_M.size ∧
    ∃ res : Markov, (matrix_mult sample_M sample_M).1 = some res ∧ wf res ∧
      res.size = sample_M.size ∧
      res.helper = List.replicate sample_M.size.toNat 0 ∧
      ∀ i j : Nat, i < sample_M.size.toNat → j < sample_M.size.toNat →
        rd res.matrix i j =
          ∑ k in Finset.range sample_M.size.toNat,
            rd sample_M.matrix i k * rd sample_M.matrix k j :=
  ⟨by decide, rfl, matrix_mult_spec sample_M sample_M (by decide) rfl⟩

/-- C10: `matrix_mult` returns `NULL` exactly when the two sizes differ (for
example sizes 2 and 3), and in every case both arguments are returned
unchanged. -/
theorem matrix_mult_mismatch (M1 M2 : Markov) :
    ((matrix_mult M1 M2).1 = none ↔ M1.size ≠ M2.size) ∧
    (matrix_mult M1 M2).2 = (M1, M2) ∧
    matrix_mult (initialize_M 2) (initialize_M 3)
      = (none, initialize_M 2, initialize_M 3) := by
  refine ⟨⟨?_, fun h => by rw [matrix_mult_err M1 M2 h]⟩, ?_,
    matrix_mult_err _ _ (by decide)⟩
  · intro h hsz
    rw [matrix_mult_ok M1 M2 hsz] at h
    simp at h
  · by_cases hsz : M1.size = M2.size
    · rw [matrix_mult_ok M1 M2 hsz]
    · rw [matrix_mult_err M1 M2 hsz]

/-! ## Sequences of updates and the count-keeping model -/

theorem count_pair_snoc (calls : List (Int × Int)) (c : Int × Int) (i k : Int) :
    count_pair (calls ++ [c]) i k = count_pair calls i k + if c = (i, k) then 1 else 0 := by
  simp [count_pair, List.count_singleton]

theorem count_src_snoc (calls : List (Int × Int)) (c : Int × Int) (i : Int) :
    count_src (calls ++ [c]) i = count_src calls i + if c.1 = i then 1 else 0 := by
  simp [count_src, List.countP_singleton]

theorem count_pair_le_src (calls : List (Int × Int)) (i k : Int) :
    count_pair calls i k ≤ count_src calls i := by
  unfold count_pair count_src
  rw [List.count_eq_countP]
  apply List.countP_mono_left
  intro x _ hx
  have : x = (i, k) := by simpa using hx
  simp [this]

theorem run_updates_snoc (M : Markov) (calls : List (Int × Int)) (c : Int × Int) :
    run_updates M (calls ++ [c]) = (update_matrix (run_updates M calls) c.1 c.2).2 := by
  simp [run_updates, List.foldl_append]

theorem new_cell_counts (cp cs : Nat) (h : cp ≤ cs) (d : ℚ) :
    ((cp : ℚ) / (cs : ℚ) * (cs : ℚ) + d) / ((cs : ℚ) + 1) = ((cp : ℚ) + d) / ((cs : ℚ) + 1) := by
  by_cases h0 : cs = 0
  · subst h0
    have : cp = 0 := by omega
    subst this
    simp
  · have : (cs : ℚ) ≠ 0 := by exact_mod_cast h0
    rw [div_mul_cancel₀ _ this]

theorem counts_inv_init (size : Int) : counts_inv size [] (initialize_M size) := by
  refine ⟨rfl, shaped_fresh size, by simp [initialize_M], ?_, ?_⟩
  · intro r hr
    simp [initialize_M, rdH, count_src, List.getElem?_replicate, hr]
  · intro r k _ _
    rw [rd_fresh]
    simp [count_pair]

theorem counts_inv_step (size : Int) (calls : List (Int × Int)) (M : Markov)
    (hinv : counts_inv size calls M) (i j : Int) (hi0 : 0 ≤ i) (hi : i < size)
    (hj0 : 0 ≤ j) (hj : j < size) :
    counts_inv size (calls ++ [(i, j)]) (update_matrix M i j).2 := by
  obtain ⟨hsz, hsh, hhl, hh, hc⟩ := hinv
  subst hsz
  rw [update_matrix_ok M i j hi0 hi hj0 hj]
  have hin : i.toNat < M.size.toNat := by omega
  have hcast : ((i.toNat : Nat) : Int) = i := Int.toNat_of_nonneg hi0
  have halpha : rdH M.helper i.toNat = (count_src calls i : Int) := by
    rw [hh i.toNat hin, hcast]
  refine ⟨rfl, ⟨?_, ?_⟩, ?_, ?_, ?_⟩
  · simp only [update_loop_length]
    exact hsh.1
  · intro r hr
    simp only [update_loop_rdRow_length]
    exact hsh.2 r hr
  · simp only [List.length_set]
    exact hhl
  · intro r hr
    simp only [count_src_snoc]
    by_cases hri : r = i.toNat
    · subst hri
      have hl : i.toNat < M.helper.length := by omega
      simp [rdH, List.getElem?_set, hl, hcast] at halpha ⊢
      rw [halpha]
    · have hne : ¬ (i = (r : Int)) := by omega
      have := hh r hr
      simp [rdH, List.getElem?_set, Ne.symm hri, hne] at this ⊢
      exact this
  · intro r k hr hk
    simp only [count_src_snoc, count_pair_snoc]
    by_cases hri : r = i.toNat
    · subst hri
      rw [update_loop_row i.toNat j _ M.matrix (by rw [hsh.1]; exact hin) M.size.toNat
        (by rw [hsh.2 _ hin]) k]
      simp only [hk, if_true, new_cell, hc i.toNat k hin hk, halpha, hcast]
      have hle := count_pair_le_src calls i k
      have key := new_cell_counts (count_pair calls i k) (count_src calls i) hle
        (if (k : Int) = j then 1 else 0)
      by_cases hkj : (k : Int) = j
      · simp only [hkj, if_true] at key ⊢
        push_cast
        simpa using key
      · have hne : ¬ ((i, j) = (i, (k : Int))) := by
          intro h
          exact hkj (by simpa using h.symm)
        simp only [hkj, if_false, hne] at key ⊢
        push_cast
        simpa using key
    · have hrow := update_loop_rdRow_ne i.toNat j (rdH M.helper i.toNat) M.matrix
        M.size.toNat r hri
      have hne : ¬ (i = (r : Int)) := by omega
      have hne2 : ¬ ((i, j) = ((r : Int), (k : Int))) := by
        intro h
        exact hne (by simpa using congrArg Prod.fst h)
      have e : rd (for_loop 0 M.size.toNat
          (update_body i.toNat j (rdH M.helper i.toNat)) M.matrix) r k = rd M.matrix r k := by
        simp only [rd, hrow]
      rw [e, hc r k hr hk]
      simp [hne, hne2]

theorem counts_inv_run (size : Int) (calls : List (Int × Int))
    (hr : in_range size calls) :
    counts_inv size calls (run_updates (initialize_M size) calls) := by
  induction calls using List.reverseRecOn with
  | nil => exact counts_inv_init size
  | append_singleton l c ih =>
    rw [run_updates_snoc]
    have hl : in_range size l := fun x hx => hr x (List.mem_append_left _ hx)
    obtain ⟨h1, h2, h3, h4⟩ := hr c (by simp)
    exact counts_inv_step size l _ (ih hl) c.1 c.2 h1 h2 h3 h4

theorem rdH_fresh (n : Int) (r : Nat) : rdH (initialize_M n).helper r = 0 := by
  by_cases hr : r < n.toNat
  · simp [initialize_M, rdH, List.getElem?_replicate, hr]
  · simp [initialize_M, rdH, List.getElem?_replicate, hr]

theorem wf_fresh (n : Int) (hn : 0 ≤ n) : wf (initialize_M n) :=
  ⟨hn, (shaped_fresh n).1, shaped_rows _ _ (shaped_fresh n), by simp [initialize_M]⟩

/-- On a row whose cells are all zero the scan of `max_prob_idx` ends at
column 0. -/
theorem max_scan_zero_row (m : List (List ℚ)) (i n : Nat) (hn : 1 ≤ n)
    (hz : ∀ k : Nat, k < n → rd m i k = 0) :
    (for_loop 1 n (max_body m i) ((0 : Int), rd m i 0)).1 = 0 := by
  obtain ⟨h0, h1, h2, _, h4⟩ := max_scan_inv m i n hn
  generalize for_loop 1 n (max_body m i) ((0 : Int), rd m i 0) = s at h0 h1 h2 h4 ⊢
  by_contra hne
  have hpos : ((0 : Nat) : Int) < s.1 := by
    simp only [Nat.cast_zero]
    omega
  have hlt := h4 0 hpos
  have e1 : rd m i 0 = 0 := hz 0 (by omega)
  have e2 : s.2 = 0 := h2.trans (hz _ (by omega))
  rw [e1, e2] at hlt
  exact lt_irrefl _ hlt

/-- On a row whose cells are all zero the scan of `min_prob_idx` ends at
column 0. -/
theorem min_scan_zero_row (m : List (List ℚ)) (i n : Nat) (hn : 1 ≤ n)
    (hz : ∀ k : Nat, k < n → rd m i k = 0) :
    (for_loop 1 n (min_body m i) ((0 : Int), rd m i 0)).1 = 0 := by
  obtain ⟨h0, h1, h2, _, h4⟩ := min_scan_inv m i n hn
  generalize for_loop 1 n (min_body m i) ((0 : Int), rd m i 0) = s at h0 h1 h2 h4 ⊢
  by_contra hne
  have hpos : ((0 : Nat) : Int) < s.1 := by
    simp only [Nat.cast_zero]
    omega
  have hlt := h4 0 hpos
  have e1 : rd m i 0 = 0 := hz 0 (by omega)
  have e2 : s.2 = 0 := h2.trans (hz _ (by omega))
  rw [e1, e2] at hlt
  exact lt_irrefl _ hlt

/-- C11: for `size ≥ 1`, `initialize_M(size)` (all allocations granted) is a
well-formed matrix of that size with every cell 0 and every counter 0, and
`max_prob_idx` and `min_prob_idx` return 0 on each of its rows, as they do on
any all-zero row of any matrix. -/
theorem initialize_M_zero (size : Int) (hsize : 1 ≤ size) :
    (initialize_M size).size = size ∧ wf (initialize_M size) ∧
    (∀ r k : Nat, rd (initialize_M size).matrix r k = 0) ∧
    (∀ r : Nat, rdH (initialize_M size).helper r = 0) ∧
    (∀ i : Int, 0 ≤ i → i < size →
      (max_prob_idx (initialize_M size) i).1 = 0 ∧
      (min_prob_idx (initialize_M size) i).1 = 0) ∧
    (∀ (M : Markov) (i : Int), 0 ≤ i → i < M.size →
      (∀ k : Nat, k < M.size.toNat → rd M.matrix i.toNat k = 0) →
      (max_prob_idx M i).1 = 0 ∧ (min_prob_idx M i).1 = 0) := by
  have hgen : ∀ (M : Markov) (i : Int), 0 ≤ i → i < M.size →
      (∀ k : Nat, k < M.size.toNat → rd M.matrix i.toNat k = 0) →
      (max_prob_idx M i).1 = 0 ∧ (min_prob_idx M i).1 = 0 := by
    intro M i hi0 hi hz
    rw [max_prob_idx_ok M i hi0 hi, min_prob_idx_ok M i hi0 hi]
    exact ⟨max_scan_zero_row M.matrix i.toNat M.size.toNat (by omega) hz,
      min_scan_zero_row M.matrix i.toNat M.size.toNat (by omega) hz⟩
  refine ⟨rfl, wf_fresh size (by omega), rd_fresh size, rdH_fresh size, ?_, hgen⟩
  intro i hi0 hi
  exact hgen (initialize_M size) i hi0 hi (fun k _ => rd_fresh size _ k)

/-- Witness for C11: the fresh matrix of size 3. -/
theorem initialize_M_zero_witness :
    (1 : Int) ≤ 3 ∧ (initialize_M 3).matrix = [[0, 0, 0], [0, 0, 0], [0, 0, 0]] ∧
    (initialize_M 3).helper = [0, 0, 0] ∧
    (max_prob_idx (initialize_M 3) 2).1 = 0 ∧ (min_prob_idx (initialize_M 3) 2).1 = 0 :=
  ⟨by decide, by decide, by decide,
   ((initialize_M_zero 3 (by decide)).2.2.2.2.1 2 (by decide) (by decide)).1,
   ((initialize_M_zero 3 (by decide)).2.2.2.2.1 2 (by decide) (by decide)).2⟩

/-- The cells of a fresh matrix after one in-range update `(i, j)`: 1 at
`[i][j]`, 0 elsewhere. -/
theorem first_update_cells (size i j : Int) (hi0 : 0 ≤ i) (hi : i < size)
    (hj0 : 0 ≤ j) (hj : j < size) (r k : Nat) (hk : k < size.toNat) :
    rd (update_matrix (initialize_M size) i j).2.matrix r k =
      if r = i.toNat ∧ k = j.toNat then 1 else 0 := by
  rw [update_matrix_ok (initialize_M size) i j hi0 hi hj0 hj]
  simp only
  have hsz : (initialize_M size).size = size := rfl
  rw [hsz, rdH_fresh]
  by_cases hr : r = i.toNat
  · subst hr
    have hin : i.toNat < size.toNat := by omega
    rw [update_loop_row i.toNat j 0 _ (by rw [(shaped_fresh size).1]; exact hin) size.toNat
      (by rw [(shaped_fresh size).2 _ hin]) k]
    simp only [hk, if_true, new_cell, rd_fresh, true_and]
    by_cases hkj : k = j.toNat
    · have : (k : Int) = j := by omega
      simp [hkj, this, hj0]
    · have : ¬ ((k : Int) = j) := by omega
      simp [hkj, this]
  · have hrow := update_loop_rdRow_ne i.toNat j 0 (initialize_M size).matrix size.toNat r hr
    have e : rd (for_loop 0 size.toNat (update_body i.toNat j 0)
        (initialize_M size).matrix) r k = rd (initialize_M size).matrix r k := by
      simp only [rd, hrow]
    rw [e, rd_fresh]
    simp [hr]

/-- C12: after exactly one in-range `update_matrix(M, i, j)` on a fresh
matrix, the call has returned 0, `matrix[i][j]` is 1, every other cell of row
`i` is 0, every other row is all zeros, and `max_prob_idx(M, i)` returns
`j`. -/
theorem single_update (size i j : Int) (hi0 : 0 ≤ i) (hi : i < size)
    (hj0 : 0 ≤ j) (hj : j < size) :
    (update_matrix (initialize_M size) i j).1 = 0 ∧
    rd (update_matrix (initialize_M size) i j).2.matrix i.toNat j.toNat = 1 ∧
    (∀ k : Nat, k < size.toNat → k ≠ j.toNat →
      rd (update_matrix (initialize_M size) i j).2.matrix i.toNat k = 0) ∧
    (∀ r k : Nat, r < size.toNat → r ≠ i.toNat → k < size.toNat →
      rd (update_matrix (initialize_M size) i j).2.matrix r k = 0) ∧
    (max_prob_idx (update_matrix (initialize_M size) i j).2 i).1 = j := by
  have hcell := first_update_cells size i j hi0 hi hj0 hj
  have hsz : (update_matrix (initialize_M size) i j).2.size = size := by
    rw [update_matrix_ok (initialize_M size) i j hi0 hi hj0 hj]
    rfl
  refine ⟨?_, ?_, ?_, ?_, ?_⟩
  · rw [update_matrix_ok (initialize_M size) i j hi0 hi hj0 hj]
  · rw [hcell _ _ (by omega)]
    simp
  · intro k hk hne
    rw [hcell _ _ hk]
    simp [hne]
  · intro r k _ hne hk
    rw [hcell _ _ hk]
    simp [hne]
  · rw [max_prob_idx_ok _ i hi0 (by rw [hsz]; exact hi), hsz]
    obtain ⟨h0, h1, h2, h3, _⟩ :=
      max_scan_inv (update_matrix (initialize_M size) i j).2.matrix i.toNat size.toNat
        (by omega)
    simp only
    by_contra hne
    have hj1 := h3 j.toNat (by omega)
    rw [h2, hcell _ _ (by omega), hcell _ _ (by omega)] at hj1
    have hidx : ¬ ((for_loop 1 size.toNat
        (max_body (update_matrix (initialize_M size) i j).2.matrix i.toNat)
        ((0 : Int), rd (update_matrix (initialize_M size) i j).2.matrix i.toNat 0)).1.toNat
          = j.toNat) := by
      omega
    simp [hidx] at hj1
    exact absurd hj1 (by norm_num)

/-- Witness for C12: the first call of the driver, `update_matrix(M, 0, 1)`
on a fresh matrix of size 3. -/
theorem single_update_witness :
    (0 : Int) ≤ 0 ∧ (0 : Int) < 3 ∧ (0 : Int) ≤ 1 ∧ (1 : Int) < 3 ∧
    (update_matrix (initialize_M 3) 0 1).2.matrix = [[0, 1, 0], [0, 0, 0], [0, 0, 0]] ∧
    (max_prob_idx (update_matrix (initialize_M 3) 0 1).2 0).1 = 1 :=
  ⟨by decide, by decide, by decide, by decide, by with_unfolding_all decide,
   (single_update 3 0 1 (by decide) (by decide) (by decide) (by decide)).2.2.2.2⟩

/-! ## The end-to-end scenario of the driver -/

/-- The cells of the structure returned by `matrix_mult` on two structures
of equal size. -/
theorem matrix_mult_cells (M1 M2 : Markov) (hsz : M1.size = M2.size) :
    ∃ res : Markov, (matrix_mult M1 M2).1 = some res ∧ res.size = M1.size ∧
      shaped M1.size.toNat res.matrix ∧
      ∀ i j : Nat, i < M1.size.toNat → j < M1.size.toNat →
        rd res.matrix i j = dot M1.matrix M2.matrix i j M1.size.toNat := by
  rw [matrix_mult_ok M1 M2 hsz]
  obtain ⟨hS, hrd⟩ := mult_i_loop M1.matrix M2.matrix (initialize_M M1.size).matrix
    M1.size.toNat M1.size.toNat (shaped_fresh M1.size) M1.size.toNat (le_refl _)
  refine ⟨_, rfl, rfl, hS, ?_⟩
  intro i j hi hj
  simp only [hrd, hi, hj, and_self, if_true, rd_fresh, zero_add]

set_option maxRecDepth 100000 in
/-- C13: in the driver scenario on a fresh matrix of size 3, each of the
fifteen calls returns 0 and the final rows are `[1/5, 2/5, 2/5]`,
`[2/5, 1/5, 2/5]`, `[2/5, 2/5, 1/5]`, with every counter equal to 5. -/
theorem scenario_final :
    return_codes (initialize_M 3) scenario
      = [0, 0, 0, 0, 0, 0, 0, 0, 0, 0, 0, 0, 0, 0, 0] ∧
    (run_updates (initialize_M 3) scenario).matrix
      = [[1/5, 2/5, 2/5], [2/5, 1/5, 2/5], [2/5, 2/5, 1/5]] ∧
    (run_updates (initialize_M 3) scenario).helper = [5, 5, 5] ∧
    (run_updates (initialize_M 3) scenario).size = 3 := by
  refine ⟨?_, ?_, ?_, ?_⟩ <;> with_unfolding_all decide

set_option maxRecDepth 100000 in
/-- C14: the extrema queries of the driver: `max_prob_idx(M, 2)` is 0 after
the 2nd update, `min_prob_idx(M, 2)` is 1 after the 4th, `max_prob_idx(M, 0)`
is 1 after the 10th, and after all fifteen `max_prob_idx` returns 1, 0, 0 on
rows 0, 1, 2. -/
theorem scenario_queries :
    (max_prob_idx (run_updates (initialize_M 3) (scenario.take 2)) 2).1 = 0 ∧
    (min_prob_idx (run_updates (initialize_M 3) (scenario.take 4)) 2).1 = 1 ∧
    (max_prob_idx (run_updates (initialize_M 3) (scenario.take 10)) 0).1 = 1 ∧
    (max_prob_idx (run_updates (initialize_M 3) scenario) 0).1 = 1 ∧
    (max_prob_idx (run_updates (initialize_M 3) scenario) 1).1 = 0 ∧
    (max_prob_idx (run_updates (initialize_M 3) scenario) 2).1 = 0 := by
  refine ⟨?_, ?_, ?_, ?_, ?_, ?_⟩ <;> with_unfolding_all decide

set_option maxRecDepth 100000 in
/-- C15: squaring the final matrix `M` of the driver scenario with
`matrix_mult(M, M)` gives `result[i][j] = Σ_k M[i][k] * M[k][j]`, which is
`9/25` on the diagonal and `8/25` off it, and leaves `M` unchanged. -/
theorem scenario_square :
    ∃ res : Markov,
      (matrix_mult (run_updates (initialize_M 3) scenario)
        (run_updates (initialize_M 3) scenario)).1 = some res ∧
      res.matrix = [[9/25, 8/25, 8/25], [8/25, 9/25, 8/25], [8/25, 8/25, 9/25]] ∧
      (∀ i j : Nat, i < 3 → j < 3 →
        rd res.matrix i j =
          ∑ k in Finset.range 3,
            rd (run_updates (initialize_M 3) scenario).matrix i k
              * rd (run_updates (initialize_M 3) scenario).matrix k j) ∧
      (matrix_mult (run_updates (initialize_M 3) scenario)
        (run_updates (initialize_M 3) scenario)).2
        = (run_updates (initialize_M 3) scenario, run_updates (initialize_M 3) scenario) := by
  have hM : run_updates (initialize_M 3) scenario
      = { matrix := [[1/5, 2/5, 2/5], [2/5, 1/5, 2/5], [2/5, 2/5, 1/5]]
          helper := [5, 5, 5], size := 3 } := by
    with_unfolding_all decide
  rw [hM]
  obtain ⟨res, h1, h2, _, h4⟩ := matrix_mult_cells
    { matrix := [[1/5, 2/5, 2/5], [2/5, 1/5, 2/5], [2/5, 2/5, 1/5]]
      helper := [5, 5, 5], size := 3 }
    { matrix := [[1/5, 2/5, 2/5], [2/5, 1/5, 2/5], [2/5, 2/5, 1/5]]
      helper := [5, 5, 5], size := 3 } rfl
  refine ⟨res, h1, ?_, ?_, ?_⟩
  · have h5 : (matrix_mult
        { matrix := [[1/5, 2/5, 2/5], [2/5, 1/5, 2/5], [2/5, 2/5, 1/5]]
          helper := [5, 5, 5], size := 3 }
        { matrix := [[1/5, 2/5, 2/5], [2/5, 1/5, 2/5], [2/5, 2/5, 1/5]]
          helper := [5, 5, 5], size := 3 }).1
        = some { matrix := [[9/25, 8/25, 8/25], [8/25, 9/25, 8/25], [8/25, 8/25, 9/25]]
                 helper := [0, 0, 0], size := 3 } := by
      with_unfolding_all decide
    rw [h5] at h1
    have := Option.some.inj h1
    rw [← this]
  · intro i j hi hj
    exact h4 i j hi hj
  · with_unfolding_all decide

/-! ## Reachable matrices: counters, bounds and extrema -/

theorem update_matrix_size (M : Markov) (i j : Int) :
    (update_matrix M i j).2.size = M.size := by
  by_cases h : i < 0 ∨ i ≥ M.size ∨ j < 0 ∨ j ≥ M.size
  · rw [update_matrix_err M i j h]
  · rw [update_matrix_ok M i j (by omega) (by omega) (by omega) (by omega)]

theorem in_range_filter (size : Int) (calls : List (Int × Int)) :
    in_range size (calls.filter (valid_call size)) := by
  intro c hc
  have := (List.mem_filter.mp hc).2
  simpa [valid_call] using this

/-- In the exact model (exact cells, unbounded counters): after in-range
calls on a fresh matrix, for a row `i` updated at least once, the scan of
`max_prob_idx` ends on the lowest-index column with the largest number of
recorded transitions out of `i`, and that of `min_prob_idx` on the
lowest-index column with the fewest. -/
theorem extrema_follow_counts (size : Int) (calls : List (Int × Int))
    (hr : in_range size calls) (i : Nat) (hi : (i : Int) < size)
    (hsrc : ∃ c ∈ calls, c.1 = (i : Int)) :
    (0 ≤ (max_prob_idx (run_updates (initialize_M size) calls) i).1 ∧
     (max_prob_idx (run_updates (initialize_M size) calls) i).1 < size ∧
     (∀ k : Nat, (k : Int) < size →
       count_pair calls i k
         ≤ count_pair calls i (max_prob_idx (run_updates (initialize_M size) calls) i).1) ∧
     (∀ k : Nat, (k : Int) < (max_prob_idx (run_updates (initialize_M size) calls) i).1 →
       count_pair calls i k
         < count_pair calls i (max_prob_idx (run_updates (initialize_M size) calls) i).1)) ∧
    (0 ≤ (min_prob_idx (run_updates (initialize_M size) calls) i).1 ∧
     (min_prob_idx (run_updates (initialize_M size) calls) i).1 < size ∧
     (∀ k : Nat, (k : Int) < size →
       count_pair calls i (min_prob_idx (run_updates (initialize_M size) calls) i).1
         ≤ count_pair calls i k) ∧
     (∀ k : Nat, (k : Int) < (min_prob_idx (run_updates (initialize_M size) calls) i).1 →
       count_pair calls i (min_prob_idx (run_updates (initialize_M size) calls) i).1
         < count_pair calls i k)) := by
  obtain ⟨hsz, _, _, _, hc⟩ := counts_inv_run size calls hr
  have hin : i < size.toNat := by omega
  have hpos : (0 : ℚ) < (count_src calls i : ℚ) := by
    have : 0 < count_src calls i := by
      unfold count_src
      rw [List.countP_pos_iff]
      obtain ⟨c, hc1, hc2⟩ := hsrc
      exact ⟨c, hc1, by simpa using hc2⟩
    exact_mod_cast this
  have hitn : ((i : Int)).toNat = i := Int.toNat_ofNat i
  constructor
  · rw [max_prob_idx_ok _ i (Int.natCast_nonneg i) (by rw [hsz]; exact hi), hsz, hitn]
    obtain ⟨h0, h1, h2, h3, h4⟩ :=
      max_scan_inv (run_updates (initialize_M size) calls).matrix i size.toNat (by omega)
    generalize for_loop 1 size.toNat (max_body (run_updates (initialize_M size) calls).matrix i)
      ((0 : Int), rd (run_updates (initialize_M size) calls).matrix i 0) = s at h0 h1 h2 h3 h4 ⊢
    simp only
    have hs : ((s.1.toNat : Nat) : Int) = s.1 := Int.toNat_of_nonneg h0
    have hval : s.2 = (count_pair calls i s.1 : ℚ) / (count_src calls i : ℚ) := by
      rw [h2, hc i s.1.toNat hin (by omega), hs]
    refine ⟨h0, by omega, ?_, ?_⟩
    · intro k hk
      have := h3 k (by omega)
      rw [hval, hc i k hin (by omega), div_le_div_iff_of_pos_right hpos] at this
      exact_mod_cast this
    · intro k hk
      have := h4 k hk
      rw [hval, hc i k hin (by omega), div_lt_div_iff_of_pos_right hpos] at this
      exact_mod_cast this
  · rw [min_prob_idx_ok _ i (Int.natCast_nonneg i) (by rw [hsz]; exact hi), hsz, hitn]
    obtain ⟨h0, h1, h2, h3, h4⟩ :=
      min_scan_inv (run_updates (initialize_M size) calls).matrix i size.toNat (by omega)
    generalize for_loop 1 size.toNat (min_body (run_updates (initialize_M size) calls).matrix i)
      ((0 : Int), rd (run_updates (initialize_M size) calls).matrix i 0) = s at h0 h1 h2 h3 h4 ⊢
    simp only
    have hs : ((s.1.toNat : Nat) : Int) = s.1 := Int.toNat_of_nonneg h0
    have hval : s.2 = (count_pair calls i s.1 : ℚ) / (count_src calls i : ℚ) := by
      rw [h2, hc i s.1.toNat hin (by omega), hs]
    refine ⟨h0, by omega, ?_, ?_⟩
    · intro k hk
      have := h3 k (by omega)
      rw [hval, hc i k hin (by omega), div_le_div_iff_of_pos_right hpos] at this
      exact_mod_cast this
    · intro k hk
      have := h4 k hk
      rw [hval, hc i k hin (by omega), div_lt_div_iff_of_pos_right hpos] at this
      exact_mod_cast this

/-! ## Products of probability rows -/

/-- The rows of a product add up as the rows of the left factor when the
rows of the right factor add up to 1. -/
theorem dot_row_sum (a b : List (List ℚ)) (i n : Nat)
    (hb : ∀ k : Nat, k < n → (∑ j in Finset.range n, rd b k j) = 1) :
    (∑ j in Finset.range n, dot a b i j n) = ∑ k in Finset.range n, rd a i k := by
  unfold dot
  rw [Finset.sum_comm]
  apply Finset.sum_congr rfl
  intro k hk
  rw [← Finset.mul_sum, hb k (Finset.mem_range.mp hk), mul_one]

/-- C20: `matrix_mult` preserves probability rows: for two well-formed
matrices of equal size whose cells are non-negative and whose rows each sum
to 1, the result is a well-formed matrix of that size whose cells are
non-negative and whose rows each sum to 1. -/
theorem matrix_mult_stochastic (M1 M2 : Markov) (hwf : wf M1) (hsz : M1.size = M2.size)
    (h1 : stochastic M1) (h2 : stochastic M2) :
    ∃ res : Markov, (matrix_mult M1 M2).1 = some res ∧ res.size = M1.size ∧
      wf res ∧ stochastic res := by
  obtain ⟨res, hres, hsize, hshape, hcell⟩ := matrix_mult_cells M1 M2 hsz
  have hhelper : res.helper.length = M1.size.toNat := by
    rw [matrix_mult_ok M1 M2 hsz] at hres
    have := Option.some.inj hres
    rw [← this]
    simp [initialize_M]
  refine ⟨res, hres, hsize, ⟨by rw [hsize]; exact hwf.1, by rw [hsize]; exact hshape.1,
    by rw [hsize]; exact shaped_rows _ _ hshape, by rw [hsize]; exact hhelper⟩, ?_⟩
  intro i hi
  rw [hsize] at hi ⊢
  constructor
  · intro k hk
    rw [hcell i k hi hk]
    unfold dot
    apply Finset.sum_nonneg
    intro t ht
    have ht2 : t < M1.size.toNat := Finset.mem_range.mp ht
    exact mul_nonneg ((h1 i hi).1 t ht2)
      ((h2 t (by rw [← hsz]; exact ht2)).1 k (by rw [← hsz]; exact hk))
  · rw [Finset.sum_congr rfl (fun k hk => hcell i k hi (Finset.mem_range.mp hk)),
      dot_row_sum M1.matrix M2.matrix i M1.size.toNat
        (fun k hk => by
          have := (h2 k (by rw [← hsz]; exact hk)).2
          rw [← hsz] at this
          exact this)]
    exact (h1 i hi).2

/-- Witness for C20: the sample matrix of probability rows multiplied by
itself. -/
theorem matrix_mult_stochastic_witness :
    wf sample_P ∧ sample_P.size = sample_P.size ∧ stochastic sample_P ∧
    ∃ res : Markov, (matrix_mult sample_P sample_P).1 = some res ∧
      res.size = sample_P.size ∧ wf res ∧ stochastic res :=
  ⟨by decide, rfl, by with_unfolding_all decide,
   matrix_mult_stochastic sample_P sample_P (by decide) rfl
    (by with_unfolding_all decide) (by with_unfolding_all decide)⟩

/-! ## Construction and allocation failure -/

/-- The row loop either fails or has built the zero rows so far. -/
theorem alloc_rows_loop (alloc : Nat → Nat → Bool) (n nm : Nat) (t : Nat) :
    for_loop 0 t
      (fun i st => Option.bind st (fun rows =>
        if calloc_ok alloc (2 + i) nm 8 = true
        then some (rows ++ [List.replicate n (0 : ℚ)]) else none))
      (some []) = none ∨
    for_loop 0 t
      (fun i st => Option.bind st (fun rows =>
        if calloc_ok alloc (2 + i) nm 8 = true
        then some (rows ++ [List.replicate n (0 : ℚ)]) else none))
      (some []) = some (List.replicate t (List.replicate n 0)) := by
  induction t with
  | zero => right; rw [for_loop_empty]; rfl
  | succ t ih =>
    rw [for_loop_succ 0 t (Nat.zero_le t)]
    rcases ih with h | h
    · left; rw [h]; rfl
    · rw [h]
      by_cases hc : calloc_ok alloc (2 + t) nm 8 = true
      · right
        simp [hc, List.replicate_succ']
      · left
        simp [hc]

theorem alloc_rows_some (alloc : Nat → Nat → Bool) (size : Int) (rows : List (List ℚ))
    (h : alloc_rows alloc size = some rows) :
    rows = List.replicate size.toNat (List.replicate size.toNat 0) := by
  unfold alloc_rows at h
  rcases alloc_rows_loop alloc size.toNat (to_size_t size) size.toNat with h2 | h2
  · rw [h2] at h
    exact absurd h (by simp)
  · rw [h2] at h
    exact (Option.some.inj h).symm

theorem malloc_bytes_neg (size : Int) (hlo : -2147483648 ≤ size) (hneg : size < 0) :
    9223372036854775808 ≤ malloc_bytes size 8 := by
  unfold malloc_bytes to_size_t
  omega

/-- Counterexample for C16 at `size = 0`: with an allocator that grants
zero-byte requests, `initialize_M(0)` returns a matrix to the caller, the
empty matrix of size 0. -/
theorem initialize_M_alloc_zero_returns :
    initialize_M_alloc lenient_alloc 0 = some { matrix := [], helper := [], size := 0 } := by
  decide

/-- C16 (amended): for an `int` `size < 0`, with an allocator that refuses
requests of `2^63` bytes or more, `initialize_M(size)` does not return: the
allocation of the row-pointer array fails and the process exits.  For
`size = 0` it returns exactly when the allocator grants the structure and the
two zero-byte requests.  Whenever it returns, for any size, the object is the
fully initialised one (all rows and counters allocated and zero). -/
theorem initialize_M_alloc_spec (alloc : Nat → Nat → Bool) (size : Int)
    (hlo : -2147483648 ≤ size)
    (hlim : ∀ idx n : Nat, 9223372036854775808 ≤ n → alloc idx n = false) :
    (size < 0 → initialize_M_alloc alloc size = none) ∧
    (size = 0 →
      ((initialize_M_alloc alloc size).isSome = true ↔
        (alloc 0 24 = true ∧ alloc 1 0 = true ∧ alloc 2 0 = true))) ∧
    (∀ M : Markov, initialize_M_alloc alloc size = some M → M = initialize_M size) := by
  refine ⟨?_, ?_, ?_⟩
  · intro hneg
    have hfail := hlim 1 (malloc_bytes size 8) (malloc_bytes_neg size hlo hneg)
    unfold initialize_M_alloc
    by_cases h0 : alloc 0 24 = false
    · rw [if_pos h0]
    · rw [if_neg h0, if_pos hfail]
  · intro hz
    subst hz
    have hrows : alloc_rows alloc 0 = some [] := by
      simp [alloc_rows, for_loop_empty]
    have hbytes : malloc_bytes 0 8 = 0 := by decide
    have hts : to_size_t 0 = 0 := by decide
    unfold initialize_M_alloc
    rw [hrows, hbytes]
    simp only [calloc_ok, hts, Int.toNat_zero, Nat.zero_mul, Nat.add_zero]
    cases h0 : alloc 0 24 <;> cases h1 : alloc 1 0 <;> cases h2 : alloc 2 0 <;> simp
  · intro M hM
    unfold initialize_M_alloc at hM
    by_cases h0 : alloc 0 24 = false
    · rw [if_pos h0] at hM
      exact absurd hM (by simp)
    · rw [if_neg h0] at hM
      by_cases h1 : alloc 1 (malloc_bytes size 8) = false
      · rw [if_pos h1] at hM
        exact absurd hM (by simp)
      · rw [if_neg h1] at hM
        cases hr : alloc_rows alloc size with
        | none =>
          rw [hr] at hM
          exact absurd hM (by simp)
        | some rows =>
          rw [hr] at hM
          simp only at hM
          by_cases h2 : calloc_ok alloc (2 + size.toNat) (to_size_t size) 4 = false
          · rw [if_pos h2] at hM
            exact absurd hM (by simp)
          · rw [if_neg h2] at hM
            rw [← Option.some.inj hM, alloc_rows_some alloc size rows hr]
            rfl

/-- Witness for C16 (amended): `initialize_M(-1)` under the allocator that
grants every request up to `PTRDIFF_MAX` bytes. -/
theorem initialize_M_alloc_spec_witness :
    (-2147483648 : Int) ≤ -1 ∧
    (∀ idx n : Nat, 9223372036854775808 ≤ n → lenient_alloc idx n = false) ∧
    initialize_M_alloc lenient_alloc (-1) = none :=
  ⟨by decide,
   fun _ n h => by simp only [lenient_alloc, decide_eq_false_iff_not]; omega,
   (initialize_M_alloc_spec lenient_alloc (-1) (by decide)
    (fun _ n h => by simp only [lenient_alloc, decide_eq_false_iff_not]; omega)).1
      (by decide)⟩

/-! ## Commuting updates -/

theorem wf_shaped (M : Markov) (hwf : wf M) : shaped M.size.toNat M.matrix :=
  ⟨hwf.2.1, fun r hr => wf_rdRow_length M hwf r hr⟩

/-- A successful update keeps the heap shape. -/
theorem update_matrix_wf (M : Markov) (hwf : wf M) (i j : Int) :
    wf (update_matrix M i j).2 := by
  by_cases h : i < 0 ∨ i ≥ M.size ∨ j < 0 ∨ j ≥ M.size
  · rw [update_matrix_err M i j h]
    exact hwf
  · rw [update_matrix_ok M i j (by omega) (by omega) (by omega) (by omega)]
    have hs := wf_shaped M hwf
    have hs2 : shaped M.size.toNat (for_loop 0 M.size.toNat
        (update_body i.toNat j (rdH M.helper i.toNat)) M.matrix) :=
      ⟨by rw [update_loop_length]; exact hs.1,
       fun r hr => by rw [update_loop_rdRow_length]; exact hs.2 r hr⟩
    exact ⟨hwf.1, hs2.1, shaped_rows _ _ hs2, by simp only [List.length_set]; exact hwf.2.2.2⟩

/-- The cells after a successful update, in terms of the cells before. -/
theorem update_matrix_cells (M : Markov) (hwf : wf M) (i j : Int) (hi0 : 0 ≤ i)
    (hi : i < M.size) (hj0 : 0 ≤ j) (hj : j < M.size) (r k : Nat) (hk : k < M.size.toNat) :
    rd (update_matrix M i j).2.matrix r k =
      if r = i.toNat then new_cell (rd M.matrix r k) (rdH M.helper r) k j
      else rd M.matrix r k := by
  rw [update_matrix_ok M i j hi0 hi hj0 hj]
  have hin : i.toNat < M.size.toNat := by omega
  by_cases hr : r = i.toNat
  · subst hr
    rw [update_loop_row i.toNat j _ M.matrix (by rw [hwf.2.1]; exact hin) M.size.toNat
      (by rw [wf_rdRow_length M hwf _ hin]) k]
    simp [hk]
  · have hrow := update_loop_rdRow_ne i.toNat j (rdH M.helper i.toNat) M.matrix
      M.size.toNat r hr
    simp only [rd, hrow, hr, if_false]

/-- The counters after a successful update, in terms of the counters
before. -/
theorem update_matrix_helper (M : Markov) (hwf : wf M) (i j : Int) (hi0 : 0 ≤ i)
    (hi : i < M.size) (hj0 : 0 ≤ j) (hj : j < M.size) (r : Nat) :
    rdH (update_matrix M i j).2.helper r =
      if r = i.toNat then rdH M.helper r + 1 else rdH M.helper r := by
  rw [update_matrix_ok M i j hi0 hi hj0 hj]
  have hl : i.toNat < M.helper.length := by rw [hwf.2.2.2]; omega
  by_cases hr : r = i.toNat
  · subst hr
    simp [rdH, List.getElem?_set, hl]
  · simp [rdH, List.getElem?_set, hr, Ne.symm hr]

/-- Two cell tables of the same shape with the same cells are equal. -/
theorem shaped_ext (n : Nat) (a b : List (List ℚ)) (ha : shaped n a) (hb : shaped n b)
    (h : ∀ r k : Nat, r < n → k < n → rd a r k = rd b r k) : a = b := by
  apply List.ext_getElem (by rw [ha.1, hb.1])
  intro r hra hrb
  have hr : r < n := by rw [← ha.1]; exact hra
  have ea : rdRow a r = a[r] := by simp [rdRow, List.getElem?_eq_getElem hra]
  have eb : rdRow b r = b[r] := by simp [rdRow, List.getElem?_eq_getElem hrb]
  have la : (a[r]).length = n := by rw [← ea]; exact ha.2 r hr
  have lb : (b[r]).length = n := by rw [← eb]; exact hb.2 r hr
  apply List.ext_getElem (by rw [la, lb])
  intro k hka hkb
  have hk : k < n := by rw [← la]; exact hka
  have := h r k hr hk
  simp only [rd, ea, eb] at this
  simpa [List.getD_eq_getElem?_getD, List.getElem?_eq_getElem hka,
    List.getElem?_eq_getElem hkb] using this

/-- Two counter arrays of the same length with the same counters are
equal. -/
theorem helper_ext (n : Nat) (a b : List Int) (ha : a.length = n) (hb : b.length = n)
    (h : ∀ r : Nat, r < n → rdH a r = rdH b r) : a = b := by
  apply List.ext_getElem (by rw [ha, hb])
  intro r hra hrb
  have := h r (by rw [← ha]; exact hra)
  simpa [rdH, List.getD_eq_getElem?_getD, List.getElem?_eq_getElem hra,
    List.getElem?_eq_getElem hrb] using this

/-- Two updates of the same cell commute when the count before them is
non-negative. -/
theorem new_cell_comm (x : ℚ) (a : Int) (ha : 0 ≤ a) (k j1 j2 : Int) :
    new_cell (new_cell x a k j1) (a + 1) k j2 = new_cell (new_cell x a k j2) (a + 1) k j1 := by
  have h1 : ((a + 1 : Int) : ℚ) ≠ 0 := by
    have : (a + 1 : Int) ≠ 0 := by omega
    exact_mod_cast this
  unfold new_cell
  rw [div_mul_cancel₀ _ h1, div_mul_cancel₀ _ h1]
  congr 1
  ring

theorem markov_ext (X Y : Markov) (hm : X.matrix = Y.matrix) (hh : X.helper = Y.helper)
    (hs : X.size = Y.size) : X = Y := by
  cases X
  cases Y
  simp only at hm hh hs
  simp [hm, hh, hs]

/-- C21: recorded transitions commute: on a well-formed matrix with
non-negative counters and in-range indices, `update_matrix(i1, j1)` followed
by `update_matrix(i2, j2)` leaves the same structure (cells, counters, size)
as the two calls in the other order. -/
theorem updates_commute (M : Markov) (hwf : wf M)
    (hnn : ∀ r : Nat, r < M.size.toNat → 0 ≤ rdH M.helper r) (i1 j1 i2 j2 : Int)
    (h1 : 0 ≤ i1 ∧ i1 < M.size ∧ 0 ≤ j1 ∧ j1 < M.size)
    (h2 : 0 ≤ i2 ∧ i2 < M.size ∧ 0 ≤ j2 ∧ j2 < M.size) :
    (update_matrix (update_matrix M i1 j1).2 i2 j2).2
      = (update_matrix (update_matrix M i2 j2).2 i1 j1).2 := by
  obtain ⟨hi1, hi1', hj1, hj1'⟩ := h1
  obtain ⟨hi2, hi2', hj2, hj2'⟩ := h2
  have hwfA := update_matrix_wf M hwf i1 j1
  have hwfB := update_matrix_wf M hwf i2 j2
  have hsA := update_matrix_size M i1 j1
  have hsB := update_matrix_size M i2 j2
  have hwfAA := update_matrix_wf _ hwfA i2 j2
  have hwfBB := update_matrix_wf _ hwfB i1 j1
  have hsAA := update_matrix_size (update_matrix M i1 j1).2 i2 j2
  have hsBB := update_matrix_size (update_matrix M i2 j2).2 i1 j1
  have hhelper : ∀ r : Nat,
      rdH (update_matrix (update_matrix M i1 j1).2 i2 j2).2.helper r
        = rdH (update_matrix (update_matrix M i2 j2).2 i1 j1).2.helper r := by
    intro r
    rw [update_matrix_helper _ hwfA i2 j2 hi2 (by rw [hsA]; exact hi2') hj2
        (by rw [hsA]; exact hj2') r,
      update_matrix_helper _ hwfB i1 j1 hi1 (by rw [hsB]; exact hi1') hj1
        (by rw [hsB]; exact hj1') r,
      update_matrix_helper M hwf i1 j1 hi1 hi1' hj1 hj1' r,
      update_matrix_helper M hwf i2 j2 hi2 hi2' hj2 hj2' r]
    split_ifs <;> omega
  apply markov_ext
  · apply shaped_ext M.size.toNat
    · have := wf_shaped _ hwfAA
      rw [hsAA, hsA] at this
      exact this
    · have := wf_shaped _ hwfBB
      rw [hsBB, hsB] at this
      exact this
    · intro r k hr hk
      rw [update_matrix_cells _ hwfA i2 j2 hi2 (by rw [hsA]; exact hi2') hj2
          (by rw [hsA]; exact hj2') r k (by rw [hsA]; exact hk),
        update_matrix_cells _ hwfB i1 j1 hi1 (by rw [hsB]; exact hi1') hj1
          (by rw [hsB]; exact hj1') r k (by rw [hsB]; exact hk),
        update_matrix_cells M hwf i1 j1 hi1 hi1' hj1 hj1' r k hk,
        update_matrix_cells M hwf i2 j2 hi2 hi2' hj2 hj2' r k hk,
        update_matrix_helper M hwf i1 j1 hi1 hi1' hj1 hj1' r,
        update_matrix_helper M hwf i2 j2 hi2 hi2' hj2 hj2' r]
      by_cases e1 : r = i1.toNat
      · by_cases e2 : r = i2.toNat
        · simp only [if_pos e1, if_pos e2]
          exact new_cell_comm _ _ (hnn r hr) _ _ _
        · simp only [if_pos e1, if_neg e2]
      · by_cases e2 : r = i2.toNat
        · simp only [if_neg e1, if_pos e2]
        · simp only [if_neg e1, if_neg e2]
  · apply helper_ext M.size.toNat
    · have := hwfAA.2.2.2
      rw [hsAA, hsA] at this
      exact this
    · have := hwfBB.2.2.2
      rw [hsBB, hsB] at this
      exact this
    · intro r _
      exact hhelper r
  · rw [hsAA, hsA, hsBB, hsB]

/-- Witness for C21: the transitions 0 → 1 and 0 → 0 on the sample matrix,
in both orders. -/
theorem updates_commute_witness :
    wf sample_M ∧ (∀ r : Nat, r < sample_M.size.toNat → 0 ≤ rdH sample_M.helper r) ∧
    (0 ≤ (0 : Int) ∧ (0 : Int) < sample_M.size ∧ 0 ≤ (1 : Int) ∧ (1 : Int) < sample_M.size) ∧
    (0 ≤ (0 : Int) ∧ (0 : Int) < sample_M.size ∧ 0 ≤ (0 : Int) ∧ (0 : Int) < sample_M.size) ∧
    (update_matrix (update_matrix sample_M 0 1).2 0 0).2
      = (update_matrix (update_matrix sample_M 0 0).2 0 1).2 :=
  ⟨by decide, by decide, by decide, by decide,
   updates_commute sample_M (by decide) (by decide) 0 1 0 0 (by decide) (by decide)⟩

/-! ## Memory accesses and divisions -/

/-- A loop on a pair of states whose body acts on the first component as
`body` does computes, in the first component, the loop of `body`. -/
theorem for_loop_fst {σ τ : Type} (lo hi : Nat) (body2 : Nat → σ × τ → σ × τ)
    (body : Nat → σ → σ) (h : ∀ (k : Nat) (s : σ × τ), (body2 k s).1 = body k s.1)
    (s : σ × τ) : (for_loop lo hi body2 s).1 = for_loop lo hi body s.1 := by
  unfold for_loop
  generalize List.range' lo (hi - lo) = l
  induction l generalizing s with
  | nil => rfl
  | cons k l ih =>
    simp only [List.foldl_cons]
    rw [ih (body2 k s), h k s]

/-- A property kept by every iteration `lo ≤ k < hi` holds after the
loop. -/
theorem for_loop_inv {σ : Type} (I : σ → Prop) (lo hi : Nat) (body : Nat → σ → σ)
    (hstep : ∀ k : Nat, lo ≤ k → k < hi → ∀ s : σ, I s → I (body k s))
    (s : σ) (h0 : I s) : I (for_loop lo hi body s) := by
  by_cases hle : lo ≤ hi
  · have key : ∀ t : Nat, lo ≤ t → t ≤ hi → I (for_loop lo t body s) := by
      intro t ht
      induction t, ht using Nat.le_induction with
      | base => intro _; rw [for_loop_empty]; exact h0
      | succ t ht ih =>
        intro hthi
        rw [for_loop_succ lo t ht]
        exact hstep t ht (by omega) _ (ih (by omega))
    exact key hi hle (le_refl _)
  · have e : hi - lo = 0 := by omega
    simp only [for_loop, e, List.range'_zero, List.foldl_nil]
    exact h0

theorem max_prob_idx_tr_fst (M : Markov) (i : Int) :
    (max_prob_idx_tr M i).1 = max_prob_idx M i := by
  unfold max_prob_idx_tr max_prob_idx
  by_cases h : i < 0 ∨ i ≥ M.size
  · rw [if_pos h, if_pos h]
  · rw [if_neg h, if_neg h]
    simp only
    rw [for_loop_fst 1 M.size.toNat (max_body_tr M.matrix i) (max_body M.matrix i.toNat)
      (fun _ _ => rfl)]

theorem min_prob_idx_tr_fst (M : Markov) (i : Int) :
    (min_prob_idx_tr M i).1 = min_prob_idx M i := by
  unfold min_prob_idx_tr min_prob_idx
  by_cases h : i < 0 ∨ i ≥ M.size
  · rw [if_pos h, if_pos h]
  · rw [if_neg h, if_neg h]
    simp only
    rw [for_loop_fst 1 M.size.toNat (min_body_tr M.matrix i) (min_body M.matrix i.toNat)
      (fun _ _ => rfl)]

theorem matrix_mult_tr_fst (M1 M2 : Markov) :
    (matrix_mult_tr M1 M2).1 = matrix_mult M1 M2 := by
  unfold matrix_mult_tr matrix_mult
  by_cases h : M1.size ≠ M2.size
  · rw [if_pos h, if_pos h]
  · rw [if_neg h, if_neg h]
    simp only
    rw [for_loop_fst 0 M1.size.toNat _
      (fun i res => for_loop 0 M2.size.toNat (fun j res =>
        for_loop 0 M1.size.toNat (mult_body M1.matrix M2.matrix i j) res) res)
      (fun i s => for_loop_fst 0 M2.size.toNat _
        (fun j res => for_loop 0 M1.size.toNat (mult_body M1.matrix M2.matrix i j) res)
        (fun j s => for_loop_fst 0 M1.size.toNat _ (mult_body M1.matrix M2.matrix i j)
          (fun _ _ => rfl) s) s)]

/-- The events of `max_prob_idx` are safe. -/
theorem max_prob_idx_tr_ok (M : Markov) (i : Int) :
    ∀ e ∈ (max_prob_idx_tr M i).2, event_ok M.size e := by
  unfold max_prob_idx_tr
  by_cases h : i < 0 ∨ i ≥ M.size
  · rw [if_pos h]
    intro e he
    simp at he
  · rw [if_neg h]
    simp only
    apply for_loop_inv (fun s : (Int × ℚ) × List Event => ∀ e ∈ s.2, event_ok M.size e)
    · intro k _ hk s hs e he
      simp only [max_body_tr, List.mem_append, List.mem_singleton] at he
      have hcell : event_ok M.size (Event.cell 0 i k) := by
        simp only [event_ok]
        omega
      rcases he with (he | he) | he
      · exact hs e he
      · rw [he]; exact hcell
      · split at he
        · simp only [List.mem_singleton] at he
          rw [he]; exact hcell
        · simp at he
    · intro e he
      simp only [List.mem_singleton] at he
      rw [he]
      simp only [event_ok]
      omega

/-- The events of `min_prob_idx` are safe. -/
theorem min_prob_idx_tr_ok (M : Markov) (i : Int) :
    ∀ e ∈ (min_prob_idx_tr M i).2, event_ok M.size e := by
  unfold min_prob_idx_tr
  by_cases h : i < 0 ∨ i ≥ M.size
  · rw [if_pos h]
    intro e he
    simp at he
  · rw [if_neg h]
    simp only
    apply for_loop_inv (fun s : (Int × ℚ) × List Event => ∀ e ∈ s.2, event_ok M.size e)
    · intro k _ hk s hs e he
      simp only [min_body_tr, List.mem_append, List.mem_singleton] at he
      have hcell : event_ok M.size (Event.cell 0 i k) := by
        simp only [event_ok]
        omega
      rcases he with (he | he) | he
      · exact hs e he
      · rw [he]; exact hcell
      · split at he
        · simp only [List.mem_singleton] at he
          rw [he]; exact hcell
        · simp at he
    · intro e he
      simp only [List.mem_singleton] at he
      rw [he]
      simp only [event_ok]
      omega

/-- The events of `matrix_mult` are safe. -/
theorem matrix_mult_tr_ok (M1 M2 : Markov) :
    ∀ e ∈ (matrix_mult_tr M1 M2).2, event_ok M1.size e := by
  unfold matrix_mult_tr
  by_cases h : M1.size ≠ M2.size
  · rw [if_pos h]
    intro e he
    simp at he
  · rw [if_neg h]
    have hsz : M2.size = M1.size := by
      by_contra hne
      exact h (fun e => hne e.symm)
    simp only
    apply for_loop_inv (fun s : List (List ℚ) × List Event => ∀ e ∈ s.2, event_ok M1.size e)
    · intro i _ hi s hs
      apply for_loop_inv
        (fun s : List (List ℚ) × List Event => ∀ e ∈ s.2, event_ok M1.size e)
      · intro j _ hj s hs
        apply for_loop_inv
          (fun s : List (List ℚ) × List Event => ∀ e ∈ s.2, event_ok M1.size e)
        · intro k _ hk s hs e he
          simp only [mult_body_tr, List.mem_append, List.mem_cons, List.mem_singleton,
            List.not_mem_nil, or_false] at he
          rcases he with he | he | he | he
          · exact hs e he
          · rw [he]; simp only [event_ok]; omega
          · rw [he]; simp only [event_ok]; omega
          · rw [he]; simp only [event_ok]; omega
        · exact hs
      · exact hs
    · intro e he
      simp at he

/-! ## The machine model: wrapping counters and rounded cells -/

theorem wrap32_id (n : Int) (h0 : -2147483648 ≤ n) (h1 : n ≤ 2147483647) : wrap32 n = n := by
  unfold wrap32
  omega

theorem wrap32_succ (n : Int) : wrap32 (wrap32 n + 1) = wrap32 (n + 1) := by
  unfold wrap32
  omega

theorem update_body_m_length (fl : ℚ → ℚ) (i : Nat) (j alpha : Int) (k : Nat)
    (m : List (List ℚ)) : (update_body_m fl i j alpha k m).length = m.length := by
  unfold update_body_m
  split <;> simp [wr_length]

theorem update_body_m_rdRow_length (fl : ℚ → ℚ) (i : Nat) (j alpha : Int) (k r : Nat)
    (m : List (List ℚ)) :
    (rdRow (update_body_m fl i j alpha k m) r).length = (rdRow m r).length := by
  unfold update_body_m
  split <;> simp [rdRow_wr_length]

theorem update_body_m_rdRow_ne (fl : ℚ → ℚ) (i : Nat) (j alpha : Int) (k r : Nat)
    (m : List (List ℚ)) (h : r ≠ i) :
    rdRow (update_body_m fl i j alpha k m) r = rdRow m r := by
  unfold update_body_m
  split <;> simp [rdRow_wr_ne _ _ _ _ _ h]

theorem update_body_m_other (fl : ℚ → ℚ) (i : Nat) (j alpha : Int) (k r c : Nat)
    (m : List (List ℚ)) (h : ¬ (r = i ∧ c = k)) :
    rd (update_body_m fl i j alpha k m) r c = rd m r c := by
  unfold update_body_m
  split <;> simp [rd_wr_other _ _ _ _ _ _ h]

/-- The value the machine `update_matrix` leaves in a cell that held `x`. -/
theorem update_body_m_same (fl : ℚ → ℚ) (i : Nat) (j alpha : Int) (k : Nat)
    (m : List (List ℚ)) (hi : i < m.length) (hk : k < (rdRow m i).length) :
    rd (update_body_m fl i j alpha k m) i k =
      fl ((if (k : Int) = j then fl (fl (rd m i k * (alpha : ℚ)) + 1)
            else fl (rd m i k * (alpha : ℚ)))
          / ((wrap32 (alpha + 1) : Int) : ℚ)) := by
  unfold update_body_m
  by_cases hj : (k : Int) = j
  · simp only [hj, if_true]
    rw [rd_wr_same, rd_wr_same, rd_wr_same] <;>
      simp [wr_length, rdRow_wr_length, hi, hk]
  · simp only [hj, if_false]
    rw [rd_wr_same, rd_wr_same] <;>
      simp [wr_length, rdRow_wr_length, hi, hk]

theorem update_loop_m_length (fl : ℚ → ℚ) (i : Nat) (j alpha : Int) (m : List (List ℚ))
    (t : Nat) : (for_loop 0 t (update_body_m fl i j alpha) m).length = m.length := by
  induction t with
  | zero => rw [for_loop_empty]
  | succ t ih => rw [for_loop_succ 0 t (Nat.zero_le t), update_body_m_length, ih]

theorem update_loop_m_rdRow_length (fl : ℚ → ℚ) (i : Nat) (j alpha : Int)
    (m : List (List ℚ)) (t r : Nat) :
    (rdRow (for_loop 0 t (update_body_m fl i j alpha) m) r).length = (rdRow m r).length := by
  induction t with
  | zero => rw [for_loop_empty]
  | succ t ih => rw [for_loop_succ 0 t (Nat.zero_le t), update_body_m_rdRow_length, ih]

theorem update_loop_m_rdRow_ne (fl : ℚ → ℚ) (i : Nat) (j alpha : Int) (m : List (List ℚ))
    (t r : Nat) (h : r ≠ i) :
    rdRow (for_loop 0 t (update_body_m fl i j alpha) m) r = rdRow m r := by
  induction t with
  | zero => rw [for_loop_empty]
  | succ t ih =>
    rw [for_loop_succ 0 t (Nat.zero_le t), update_body_m_rdRow_ne _ _ _ _ _ _ _ h, ih]

/-- Loop invariant of the machine `update_matrix`: after the iterations
`k < t` the columns below `t` of row `i` hold their new value and the others
their old one. -/
theorem update_loop_m_row (fl : ℚ → ℚ) (i : Nat) (j alpha : Int) (m : List (List ℚ))
    (hi : i < m.length) (t : Nat) (ht : t ≤ (rdRow m i).length) (c : Nat) :
    rd (for_loop 0 t (update_body_m fl i j alpha) m) i c =
      if c < t then
        fl ((if (c : Int) = j then fl (fl (rd m i c * (alpha : ℚ)) + 1)
              else fl (rd m i c * (alpha : ℚ)))
            / ((wrap32 (alpha + 1) : Int) : ℚ))
      else rd m i c := by
  induction t with
  | zero => simp [for_loop_empty]
  | succ t ih =>
    have ih2 := ih (by omega)
    rw [for_loop_succ 0 t (Nat.zero_le t)]
    by_cases hc : c = t
    · subst hc
      rw [update_body_m_same, ih2]
      · simp
      · rw [update_loop_m_length]; exact hi
      · rw [update_loop_m_rdRow_length]; omega
    · rw [update_body_m_other _ _ _ _ _ _ _ _ (fun h => hc h.2), ih2]
      by_cases h1 : c < t
      · simp [h1, Nat.lt_succ_of_lt h1]
      · have h2 : ¬ c < t + 1 := by omega
        simp [h1, h2]

theorem update_matrix_m_ok (fl : ℚ → ℚ) (M : Markov) (i j : Int) (hi0 : 0 ≤ i)
    (hi : i < M.size) (hj0 : 0 ≤ j) (hj : j < M.size) :
    update_matrix_m fl M i j =
      (0, { matrix := for_loop 0 M.size.toNat
                        (update_body_m fl i.toNat j (rdH M.helper i.toNat)) M.matrix
            helper := M.helper.set i.toNat (wrap32 (rdH M.helper i.toNat + 1))
            size := M.size }) := by
  have h : ¬ (i ≥ M.size ∨ j ≥ M.size ∨ i < 0 ∨ j < 0) := by omega
  simp only [update_matrix_m, h, if_false]

theorem update_matrix_m_err (fl : ℚ → ℚ) (M : Markov) (i j : Int)
    (h : i < 0 ∨ i ≥ M.size ∨ j < 0 ∨ j ≥ M.size) : update_matrix_m fl M i j = (-1, M) := by
  have h2 : i ≥ M.size ∨ j ≥ M.size ∨ i < 0 ∨ j < 0 := by omega
  simp only [update_matrix_m, h2, if_true]

theorem update_matrix_m_size (fl : ℚ → ℚ) (M : Markov) (i j : Int) :
    (update_matrix_m fl M i j).2.size = M.size := by
  by_cases h : i < 0 ∨ i ≥ M.size ∨ j < 0 ∨ j ≥ M.size
  · rw [update_matrix_m_err fl M i j h]
  · rw [update_matrix_m_ok fl M i j (by omega) (by omega) (by omega) (by omega)]

theorem run_updates_m_cons (fl : ℚ → ℚ) (M : Markov) (c : Int × Int)
    (cs : List (Int × Int)) :
    run_updates_m fl M (c :: cs) = run_updates_m fl (update_matrix_m fl M c.1 c.2).2 cs := by
  simp [run_updates_m]

theorem run_updates_m_snoc (fl : ℚ → ℚ) (M : Markov) (calls : List (Int × Int))
    (c : Int × Int) :
    run_updates_m fl M (calls ++ [c])
      = (update_matrix_m fl (run_updates_m fl M calls) c.1 c.2).2 := by
  simp [run_updates_m, List.foldl_append]

theorem machine_inv_init (size : Int) : machine_inv size [] (initialize_M size) := by
  refine ⟨rfl, shaped_fresh size, by simp [initialize_M], ?_⟩
  intro r _
  rw [rdH_fresh]
  simp [count_src, wrap32]

theorem machine_inv_step (fl : ℚ → ℚ) (size : Int) (calls : List (Int × Int)) (M : Markov)
    (hinv : machine_inv size calls M) (i j : Int) (hi0 : 0 ≤ i) (hi : i < size)
    (hj0 : 0 ≤ j) (hj : j < size) :
    machine_inv size (calls ++ [(i, j)]) (update_matrix_m fl M i j).2 := by
  obtain ⟨hsz, hsh, hhl, hh⟩ := hinv
  subst hsz
  rw [update_matrix_m_ok fl M i j hi0 hi hj0 hj]
  have hin : i.toNat < M.size.toNat := by omega
  have hcast : ((i.toNat : Nat) : Int) = i := Int.toNat_of_nonneg hi0
  refine ⟨rfl, ⟨?_, ?_⟩, ?_, ?_⟩
  · simp only [update_loop_m_length]
    exact hsh.1
  · intro r hr
    simp only [update_loop_m_rdRow_length]
    exact hsh.2 r hr
  · simp only [List.length_set]
    exact hhl
  · intro r hr
    simp only [count_src_snoc]
    by_cases hri : r = i.toNat
    · subst hri
      have hl : i.toNat < M.helper.length := by omega
      have e : rdH (M.helper.set i.toNat (wrap32 (rdH M.helper i.toNat + 1))) i.toNat
          = wrap32 (rdH M.helper i.toNat + 1) := by
        simp [rdH, List.getElem?_set, hl]
      rw [e, hh i.toNat hin, wrap32_succ, hcast]
      simp
    · have hne : ¬ (i = (r : Int)) := by omega
      have e : rdH (M.helper.set i.toNat (wrap32 (rdH M.helper i.toNat + 1))) r
          = rdH M.helper r := by
        simp [rdH, List.getElem?_set, Ne.symm hri]
      rw [e, hh r hr]
      simp [hne]

theorem machine_inv_run (fl : ℚ → ℚ) (size : Int) (calls : List (Int × Int))
    (hr : in_range size calls) :
    machine_inv size calls (run_updates_m fl (initialize_M size) calls) := by
  induction calls using List.reverseRecOn with
  | nil => exact machine_inv_init size
  | append_singleton l c ih =>
    rw [run_updates_m_snoc]
    have hl : in_range size l := fun x hx => hr x (List.mem_append_left _ hx)
    obtain ⟨h1, h2, h3, h4⟩ := hr c (by simp)
    exact machine_inv_step fl size l _ (ih hl) c.1 c.2 h1 h2 h3 h4

/-- On the machine too, rejected calls leave no trace. -/
theorem run_updates_m_filter (fl : ℚ → ℚ) (size : Int) (calls : List (Int × Int)) :
    ∀ M : Markov, M.size = size →
      run_updates_m fl M calls = run_updates_m fl M (calls.filter (valid_call size)) := by
  induction calls with
  | nil => intro M _; rfl
  | cons c cs ih =>
    intro M hM
    rw [run_updates_m_cons]
    by_cases hv : valid_call size c = true
    · rw [List.filter_cons_of_pos hv, run_updates_m_cons]
      exact ih _ (by rw [update_matrix_m_size, hM])
    · rw [List.filter_cons_of_neg hv]
      have hbad : c.1 < 0 ∨ c.1 ≥ M.size ∨ c.2 < 0 ∨ c.2 ≥ M.size := by
        simp only [valid_call, decide_eq_true_eq] at hv
        omega
      rw [update_matrix_m_err fl M c.1 c.2 hbad]
      exact ih M hM

/-- On the machine too, the calls that returned 0 with source `i` are the
accepted calls with source `i`. -/
theorem count_ok_m_filter (fl : ℚ → ℚ) (size : Int) (calls : List (Int × Int)) (i : Int) :
    ∀ M : Markov, M.size = size →
      count_ok_m fl M calls i = count_src (calls.filter (valid_call size)) i := by
  induction calls with
  | nil => intro M _; simp [count_ok_m, count_src]
  | cons c cs ih =>
    intro M hM
    unfold count_ok_m
    rw [ih _ (by rw [update_matrix_m_size, hM])]
    by_cases hv : valid_call size c = true
    · rw [List.filter_cons_of_pos hv]
      have hin : 0 ≤ c.1 ∧ c.1 < size ∧ 0 ≤ c.2 ∧ c.2 < size := by
        simpa [valid_call] using hv
      rw [update_matrix_m_ok fl M c.1 c.2 hin.1 (by omega) hin.2.2.1 (by omega)]
      simp only [count_src, List.countP_cons, true_and, decide_eq_true_eq]
      omega
    · rw [List.filter_cons_of_neg hv]
      have hbad : c.1 < 0 ∨ c.1 ≥ M.size ∨ c.2 < 0 ∨ c.2 ≥ M.size := by
        simp only [valid_call, decide_eq_true_eq] at hv
        omega
      rw [update_matrix_m_err fl M c.1 c.2 hbad]
      simp

/-- The counter of a row on the machine after any calls: the number of
calls that returned 0 with that source, wrapped to 32 bits. -/
theorem helper_m_wrap (fl : ℚ → ℚ) (size : Int) (calls : List (Int × Int)) (i : Nat)
    (hi : (i : Int) < size) :
    rdH (run_updates_m fl (initialize_M size) calls).helper i
      = wrap32 (count_ok_m fl (initialize_M size) calls (i : Int)) := by
  rw [run_updates_m_filter fl size calls (initialize_M size) rfl,
    count_ok_m_filter fl size calls i (initialize_M size) rfl]
  obtain ⟨_, _, _, hh⟩ := machine_inv_run fl size (calls.filter (valid_call size))
    (in_range_filter size calls)
  exact hh i (by omega)

theorem count_src_replicate (n : Nat) (i j : Int) :
    count_src (List.replicate n (i, j)) i = n := by
  simp [count_src, List.countP_replicate]

theorem filter_valid_replicate (size : Int) (n : Nat) (i j : Int)
    (h : 0 ≤ i ∧ i < size ∧ 0 ≤ j ∧ j < size) :
    (List.replicate n (i, j)).filter (valid_call size) = List.replicate n (i, j) := by
  rw [List.filter_eq_self]
  intro a ha
  rw [List.eq_of_mem_replicate ha]
  simpa [valid_call] using h

theorem update_matrix_m_tr_fst (fl : ℚ → ℚ) (M : Markov) (i j : Int) :
    (update_matrix_m_tr fl M i j).1 = update_matrix_m fl M i j := by
  unfold update_matrix_m_tr update_matrix_m
  by_cases h : i ≥ M.size ∨ j ≥ M.size ∨ i < 0 ∨ j < 0
  · rw [if_pos h, if_pos h]
  · rw [if_neg h, if_neg h]
    simp only
    rw [for_loop_fst 0 M.size.toNat (update_body_m_tr fl i j (rdH M.helper i.toNat))
      (update_body_m fl i.toNat j (rdH M.helper i.toNat)) (fun _ _ => rfl)]

/-- The events of the machine `update_matrix`: the access to the counter of
row `i`, accesses to cells of row `i` in columns below `size`, and divisions
by the wrapped `alpha + 1`; there are events only when the guard has
passed. -/
theorem update_matrix_m_tr_events (fl : ℚ → ℚ) (M : Markov) (i j : Int) :
    ∀ e ∈ (update_matrix_m_tr fl M i j).2,
      (0 ≤ i ∧ i < M.size) ∧
      (e = Event.counter 0 i ∨ (∃ k : Nat, (k : Int) < M.size ∧ e = Event.cell 0 i k) ∨
        e = Event.divide (wrap32 (rdH M.helper i.toNat + 1))) := by
  unfold update_matrix_m_tr
  by_cases h : i ≥ M.size ∨ j ≥ M.size ∨ i < 0 ∨ j < 0
  · rw [if_pos h]
    intro e he
    simp at he
  · rw [if_neg h]
    simp only
    have hi : 0 ≤ i ∧ i < M.size := by omega
    apply for_loop_inv (fun s : List (List ℚ) × List Event => ∀ e ∈ s.2,
      (0 ≤ i ∧ i < M.size) ∧
      (e = Event.counter 0 i ∨ (∃ k : Nat, (k : Int) < M.size ∧ e = Event.cell 0 i k) ∨
        e = Event.divide (wrap32 (rdH M.helper i.toNat + 1))))
    · intro k _ hk s hs e he
      simp only [update_body_m_tr, List.mem_append, List.mem_cons, List.mem_singleton,
        List.not_mem_nil, or_false] at he
      have hcell : ∃ k' : Nat, (k' : Int) < M.size ∧ Event.cell 0 i k = Event.cell 0 i k' :=
        ⟨k, by omega, rfl⟩
      rcases he with ((he | he) | he) | he
      · exact hs e he
      · rw [he]; exact ⟨hi, Or.inr (Or.inl hcell)⟩
      · split at he
        · simp only [List.mem_singleton] at he
          rw [he]; exact ⟨hi, Or.inr (Or.inl hcell)⟩
        · simp at he
      · rcases he with he | he | he
        · rw [he]; exact ⟨hi, Or.inr (Or.inl hcell)⟩
        · rw [he]; exact ⟨hi, Or.inr (Or.inr rfl)⟩
        · rw [he]; exact ⟨hi, Or.inr (Or.inl hcell)⟩
    · intro e he
      simp only [List.mem_singleton] at he
      rw [he]
      exact ⟨hi, Or.inl rfl⟩

/-- Every access of the machine `update_matrix` is in bounds. -/
theorem update_matrix_m_tr_index_ok (fl : ℚ → ℚ) (M : Markov) (i j : Int) :
    ∀ e ∈ (update_matrix_m_tr fl M i j).2, index_ok M.size e := by
  intro e he
  obtain ⟨hi, h | ⟨k, hk, h⟩ | h⟩ := update_matrix_m_tr_events fl M i j e he
  · rw [h]; simp only [index_ok]; omega
  · rw [h]; simp only [index_ok]; omega
  · rw [h]; simp only [index_ok]

/-- Every event of the machine `update_matrix` is safe when the wrapped
`alpha + 1` is at least 1. -/
theorem update_matrix_m_tr_ok (fl : ℚ → ℚ) (M : Markov) (i j : Int)
    (hd : 0 ≤ i → i < M.size → 1 ≤ wrap32 (rdH M.helper i.toNat + 1)) :
    ∀ e ∈ (update_matrix_m_tr fl M i j).2, event_ok M.size e := by
  intro e he
  obtain ⟨hi, h | ⟨k, hk, h⟩ | h⟩ := update_matrix_m_tr_events fl M i j e he
  · rw [h]; simp only [event_ok]; omega
  · rw [h]; simp only [event_ok]; omega
  · rw [h]; simp only [event_ok]; exact hd hi.1 hi.2

/-- A matrix reached on the machine from `initialize_M(size)` by any calls
is well-formed and has size `size`. -/
theorem reached_m_wf (fl : ℚ → ℚ) (size : Int) (hsize : 0 ≤ size)
    (calls : List (Int × Int)) :
    wf (run_updates_m fl (initialize_M size) calls) ∧
    (run_updates_m fl (initialize_M size) calls).size = size := by
  rw [run_updates_m_filter fl size calls (initialize_M size) rfl]
  obtain ⟨hsz, hsh, hhl, _⟩ := machine_inv_run fl size (calls.filter (valid_call size))
    (in_range_filter size calls)
  exact ⟨⟨by rw [hsz]; exact hsize, by rw [hsz]; exact hsh.1,
    by rw [hsz]; exact shaped_rows _ _ hsh, by rw [hsz]; exact hhl⟩, hsz⟩

theorem count_ok_m_le_length (fl : ℚ → ℚ) (calls : List (Int × Int)) (i : Int) :
    ∀ M : Markov, count_ok_m fl M calls i ≤ calls.length := by
  induction calls with
  | nil => intro M; simp [count_ok_m]
  | cons c cs ih =>
    intro M
    unfold count_ok_m
    have := ih (update_matrix_m fl M c.1 c.2).2
    simp only [List.length_cons]
    split <;> omega

/-- On a matrix of size 1 the call `update_matrix(M, 0, 0)` is accepted and
divides by the wrapped `helper[0] + 1`. -/
theorem update_size_one_divides (fl : ℚ → ℚ) (M : Markov) (hsz : M.size = 1) :
    (update_matrix_m fl M 0 0).1 = 0 ∧
    Event.divide (wrap32 (rdH M.helper 0 + 1)) ∈ (update_matrix_m_tr fl M 0 0).2 := by
  constructor
  · rw [update_matrix_m_ok fl M 0 0 (le_refl _) (by omega) (le_refl _) (by omega)]
  · unfold update_matrix_m_tr
    have h : ¬ ((0 : Int) ≥ M.size ∨ (0 : Int) ≥ M.size ∨ (0 : Int) < 0 ∨ (0 : Int) < 0) := by
      omega
    rw [if_neg h]
    have hn : M.size.toNat = 0 + 1 := by rw [hsz]; rfl
    simp only [hn]
    rw [for_loop_succ 0 0 (le_refl _), for_loop_empty]
    simp [update_body_m_tr]

/-- Counterexample for C22: after `2^32 - 1` accepted calls
`update_matrix(M, 0, 0)` on a fresh matrix of size 1 the counter has wrapped
to `-1`, and the next accepted call `update_matrix(M, 0, 0)` divides by 0. -/
theorem division_by_zero_after_overflow :
    rdH (run_updates_m round_double (initialize_M 1)
      (List.replicate 4294967295 (0, 0))).helper 0 = -1 ∧
    (update_matrix_m round_double (run_updates_m round_double (initialize_M 1)
      (List.replicate 4294967295 (0, 0))) 0 0).1 = 0 ∧
    Event.divide 0 ∈ (update_matrix_m_tr round_double
      (run_updates_m round_double (initialize_M 1)
        (List.replicate 4294967295 (0, 0))) 0 0).2 := by
  have hsz := (reached_m_wf round_double 1 (by decide) (List.replicate 4294967295 (0, 0))).2
  have hcount : count_ok_m round_double (initialize_M 1)
      (List.replicate 4294967295 (0, 0)) 0 = 4294967295 := by
    rw [count_ok_m_filter round_double 1 _ 0 (initialize_M 1) rfl,
      filter_valid_replicate 1 _ 0 0 (by decide), count_src_replicate]
  have hh : rdH (run_updates_m round_double (initialize_M 1)
      (List.replicate 4294967295 (0, 0))).helper 0 = -1 := by
    have h := helper_m_wrap round_double 1 (List.replicate 4294967295 (0, 0)) 0 (by decide)
    simp only [Nat.cast_zero] at h
    rw [h, hcount]
    decide
  obtain ⟨h1, h2⟩ := update_size_one_divides round_double _ hsz
  rw [hh] at h2
  exact ⟨hh, h1, h2⟩

/-- C22 (amended): a matrix reached on the machine from `initialize_M(size)`,
`size ≥ 1`, by any `update_matrix` calls is well-formed with size `size`, and
every access `matrix[i][k]` and `helper[i]` made on it by `update_matrix`,
`max_prob_idx`, `min_prob_idx` and `matrix_mult` after their argument checks
has `0 ≤ i < size` and `0 ≤ k < size` (the events of the instrumented
functions, whose results are those of the plain ones).  The divisor
`alpha + 1` of a successful update on row `i` is at least 1 as long as fewer
than `2^31 - 1` calls have returned 0 with source row `i`.  This holds
whatever the rounding `fl` of the cells. -/
theorem accesses_and_divisions_safe_m (fl : ℚ → ℚ) (size : Int) (hsize : 1 ≤ size)
    (calls : List (Int × Int)) :
    wf (run_updates_m fl (initialize_M size) calls) ∧
    (run_updates_m fl (initialize_M size) calls).size = size ∧
    (∀ i j : Int,
      (update_matrix_m_tr fl (run_updates_m fl (initialize_M size) calls) i j).1
        = update_matrix_m fl (run_updates_m fl (initialize_M size) calls) i j ∧
      (∀ e ∈ (update_matrix_m_tr fl (run_updates_m fl (initialize_M size) calls) i j).2,
        index_ok size e) ∧
      (count_ok_m fl (initialize_M size) calls i < 2147483647 →
        ((update_matrix_m fl (run_updates_m fl (initialize_M size) calls) i j).1 = 0 →
          1 ≤ wrap32 (rdH (run_updates_m fl (initialize_M size) calls).helper i.toNat + 1)) ∧
        (∀ e ∈ (update_matrix_m_tr fl (run_updates_m fl (initialize_M size) calls) i j).2,
          event_ok size e))) ∧
    (∀ i : Int,
      (max_prob_idx_tr (run_updates_m fl (initialize_M size) calls) i).1
        = max_prob_idx (run_updates_m fl (initialize_M size) calls) i ∧
      ∀ e ∈ (max_prob_idx_tr (run_updates_m fl (initialize_M size) calls) i).2,
        event_ok size e) ∧
    (∀ i : Int,
      (min_prob_idx_tr (run_updates_m fl (initialize_M size) calls) i).1
        = min_prob_idx (run_updates_m fl (initialize_M size) calls) i ∧
      ∀ e ∈ (min_prob_idx_tr (run_updates_m fl (initialize_M size) calls) i).2,
        event_ok size e) ∧
    (∀ M2 : Markov,
      (matrix_mult_tr (run_updates_m fl (initialize_M size) calls) M2).1
        = matrix_mult (run_updates_m fl (initialize_M size) calls) M2 ∧
      (∀ e ∈ (matrix_mult_tr (run_updates_m fl (initialize_M size) calls) M2).2,
        event_ok size e) ∧
      (matrix_mult_tr M2 (run_updates_m fl (initialize_M size) calls)).1
        = matrix_mult M2 (run_updates_m fl (initialize_M size) calls) ∧
      (∀ e ∈ (matrix_mult_tr M2 (run_updates_m fl (initialize_M size) calls)).2,
        event_ok size e)) := by
  obtain ⟨hwf, hsz⟩ := reached_m_wf fl size (by omega) calls
  have hdiv : ∀ i : Int, count_ok_m fl (initialize_M size) calls i < 2147483647 →
      0 ≤ i → i < size →
      1 ≤ wrap32 (rdH (run_updates_m fl (initialize_M size) calls).helper i.toNat + 1) := by
    intro i hb h0 h1
    have h := helper_m_wrap fl size calls i.toNat (by omega)
    rw [Int.toNat_of_nonneg h0] at h
    rw [h, wrap32_succ, wrap32_id _ (by omega) (by omega)]
    omega
  generalize run_updates_m fl (initialize_M size) calls = M at hwf hsz hdiv ⊢
  subst hsz
  refine ⟨hwf, rfl, ?_, ?_, ?_, ?_⟩
  · intro i j
    refine ⟨update_matrix_m_tr_fst fl M i j, update_matrix_m_tr_index_ok fl M i j, ?_⟩
    intro hb
    refine ⟨?_, update_matrix_m_tr_ok fl M i j (hdiv i hb)⟩
    intro hok
    have hin : ¬ (i < 0 ∨ i ≥ M.size ∨ j < 0 ∨ j ≥ M.size) := by
      intro h
      rw [update_matrix_m_err fl M i j h] at hok
      simp at hok
    exact hdiv i hb (by omega) (by omega)
  · intro i
    exact ⟨max_prob_idx_tr_fst M i, max_prob_idx_tr_ok M i⟩
  · intro i
    exact ⟨min_prob_idx_tr_fst M i, min_prob_idx_tr_ok M i⟩
  · intro M2
    refine ⟨matrix_mult_tr_fst M M2, matrix_mult_tr_ok M M2, matrix_mult_tr_fst M2 M, ?_⟩
    by_cases h : M2.size = M.size
    · rw [← h]
      exact matrix_mult_tr_ok M2 M
    · intro e he
      unfold matrix_mult_tr at he
      rw [if_pos h] at he
      simp at he

/-- Witness for C22 (amended): the events of a second transition 0 → 1 on a
size-2 matrix that has recorded one, with IEEE rounding: the counter, then
per column the accesses and the division by 2. -/
theorem accesses_and_divisions_safe_m_witness :
    (1 : Int) ≤ 2 ∧
    count_ok_m round_double (initialize_M 2) [(0, 1)] 0 < 2147483647 ∧
    (update_matrix_m_tr round_double (run_updates_m round_double (initialize_M 2) [(0, 1)])
        0 1).2
      = [Event.counter 0 0,
         Event.cell 0 0 0, Event.cell 0 0 0, Event.divide 2, Event.cell 0 0 0,
         Event.cell 0 0 1, Event.cell 0 0 1, Event.cell 0 0 1, Event.divide 2,
         Event.cell 0 0 1] ∧
    (∀ e ∈ (update_matrix_m_tr round_double
        (run_updates_m round_double (initialize_M 2) [(0, 1)]) 0 1).2,
      event_ok 2 e) :=
  ⟨by decide, by with_unfolding_all decide, by with_unfolding_all decide,
   (((accesses_and_divisions_safe_m round_double 2 (by decide) [(0, 1)]).2.2.1 0 1).2.2
      (by with_unfolding_all decide)).2⟩

/-- One rounded update keeps a cell in `[0, 1]` when the rounding is
monotone on the non-negative rationals and exact on the counts. -/
theorem unit_step (fl : ℚ → ℚ) (hmono : ∀ x y : ℚ, 0 ≤ x → x ≤ y → fl x ≤ fl y)
    (hfix : ∀ n : Nat, n ≤ 2147483647 → fl (n : ℚ) = (n : ℚ)) (x : ℚ) (hx0 : 0 ≤ x)
    (hx1 : x ≤ 1) (a : Nat) (ha : a + 1 ≤ 2147483647) (b : Prop) [Decidable b] :
    0 ≤ fl ((if b then fl (fl (x * (a : ℚ)) + 1) else fl (x * (a : ℚ))) / ((a : ℚ) + 1)) ∧
    fl ((if b then fl (fl (x * (a : ℚ)) + 1) else fl (x * (a : ℚ))) / ((a : ℚ) + 1)) ≤ 1 := by
  have h0 : fl 0 = 0 := by simpa using hfix 0 (by omega)
  have h1 : fl 1 = 1 := by simpa using hfix 1 (by omega)
  have hfa : fl (a : ℚ) = (a : ℚ) := hfix a (by omega)
  have hfa1 : fl ((a : ℚ) + 1) = (a : ℚ) + 1 := by
    have := hfix (a + 1) ha
    simpa using this
  have ha0 : (0 : ℚ) ≤ (a : ℚ) := Nat.cast_nonneg a
  have hxa0 : 0 ≤ x * (a : ℚ) := mul_nonneg hx0 ha0
  have hxa1 : x * (a : ℚ) ≤ (a : ℚ) := by
    calc x * (a : ℚ) ≤ 1 * (a : ℚ) := mul_le_mul_of_nonneg_right hx1 ha0
      _ = (a : ℚ) := one_mul _
  have y1lo : 0 ≤ fl (x * (a : ℚ)) := by
    have := hmono 0 (x * (a : ℚ)) (le_refl _) hxa0
    rwa [h0] at this
  have y1hi : fl (x * (a : ℚ)) ≤ (a : ℚ) := by
    have := hmono (x * (a : ℚ)) (a : ℚ) hxa0 hxa1
    rwa [hfa] at this
  have y2lo : 0 ≤ (if b then fl (fl (x * (a : ℚ)) + 1) else fl (x * (a : ℚ))) := by
    split
    · have := hmono 0 (fl (x * (a : ℚ)) + 1) (le_refl _) (by linarith)
      rwa [h0] at this
    · exact y1lo
  have y2hi : (if b then fl (fl (x * (a : ℚ)) + 1) else fl (x * (a : ℚ))) ≤ (a : ℚ) + 1 := by
    split
    · have := hmono (fl (x * (a : ℚ)) + 1) ((a : ℚ) + 1) (by linarith) (by linarith)
      rwa [hfa1] at this
    · linarith
  have hpos : (0 : ℚ) < (a : ℚ) + 1 := by linarith
  have q0 : 0 ≤ (if b then fl (fl (x * (a : ℚ)) + 1) else fl (x * (a : ℚ))) / ((a : ℚ) + 1) :=
    div_nonneg y2lo (le_of_lt hpos)
  have q1 : (if b then fl (fl (x * (a : ℚ)) + 1) else fl (x * (a : ℚ))) / ((a : ℚ) + 1) ≤ 1 :=
    (div_le_one hpos).mpr y2hi
  constructor
  · have := hmono 0 _ (le_refl _) q0
    rwa [h0] at this
  · have := hmono _ 1 q0 q1
    rwa [h1] at this

theorem count_src_le_snoc (calls : List (Int × Int)) (c : Int × Int) (r : Int) :
    count_src calls r ≤ count_src (calls ++ [c]) r := by
  rw [count_src_snoc]
  omega

/-- On the machine, without counter overflow, every cell of a reached matrix
stays in `[0, 1]`, for a rounding that is monotone on the non-negative
rationals and exact on the counts. -/
theorem unit_cells_run (fl : ℚ → ℚ) (hmono : ∀ x y : ℚ, 0 ≤ x → x ≤ y → fl x ≤ fl y)
    (hfix : ∀ n : Nat, n ≤ 2147483647 → fl (n : ℚ) = (n : ℚ)) (size : Int)
    (calls : List (Int × Int)) (hr : in_range size calls)
    (hb : ∀ r : Int, count_src calls r ≤ 2147483647) :
    ∀ r k : Nat, r < size.toNat → k < size.toNat →
      0 ≤ rd (run_updates_m fl (initialize_M size) calls).matrix r k ∧
      rd (run_updates_m fl (initialize_M size) calls).matrix r k ≤ 1 := by
  induction calls using List.reverseRecOn with
  | nil =>
    intro r k _ _
    have : run_updates_m fl (initialize_M size) [] = initialize_M size := rfl
    rw [this, rd_fresh]
    exact ⟨le_refl _, zero_le_one⟩
  | append_singleton l c ih =>
    have hl : in_range size l := fun x hx => hr x (List.mem_append_left _ hx)
    have hbl : ∀ r : Int, count_src l r ≤ 2147483647 :=
      fun r => le_trans (count_src_le_snoc l c r) (hb r)
    have ih2 := ih hl hbl
    obtain ⟨hi0, hi, hj0, hj⟩ := hr c (by simp)
    obtain ⟨hsz, hsh, hhl, hh⟩ := machine_inv_run fl size l hl
    intro r k hr2 hk
    rw [run_updates_m_snoc]
    generalize run_updates_m fl (initialize_M size) l = M at ih2 hsz hsh hhl hh ⊢
    subst hsz
    rw [update_matrix_m_ok fl M c.1 c.2 hi0 hi hj0 hj]
    have hin : c.1.toNat < M.size.toNat := by omega
    have hcast : ((c.1.toNat : Nat) : Int) = c.1 := Int.toNat_of_nonneg hi0
    by_cases hri : r = c.1.toNat
    · subst hri
      rw [update_loop_m_row fl c.1.toNat c.2 _ M.matrix (by rw [hsh.1]; exact hin)
        M.size.toNat (by rw [hsh.2 _ hin]) k]
      simp only [hk, if_true]
      have hcnt : count_src l c.1 + 1 ≤ 2147483647 := by
        have := hb c.1
        rw [count_src_snoc] at this
        simpa using this
      have halpha : rdH M.helper c.1.toNat = ((count_src l c.1 : Nat) : Int) := by
        rw [hh c.1.toNat hin, hcast]
        exact wrap32_id _ (by omega) (by omega)
      have hdiv : wrap32 (rdH M.helper c.1.toNat + 1) = ((count_src l c.1 : Nat) : Int) + 1 := by
        rw [halpha]
        exact wrap32_id _ (by omega) (by omega)
      rw [hdiv, halpha]
      have key := unit_step fl hmono hfix (rd M.matrix c.1.toNat k) (ih2 _ k hin hk).1
        (ih2 _ k hin hk).2 (count_src l c.1) hcnt ((k : Int) = c.2)
      push_cast
      exact key
    · have hrow := update_loop_m_rdRow_ne fl c.1.toNat c.2 (rdH M.helper c.1.toNat) M.matrix
        M.size.toNat r hri
      have e : rd (for_loop 0 M.size.toNat
          (update_body_m fl c.1.toNat c.2 (rdH M.helper c.1.toNat)) M.matrix) r k
            = rd M.matrix r k := by
        simp only [rd, hrow]
      rw [e]
      exact ih2 r k hr2 hk

/-! ## IEEE rounding: monotone, exact on small integers -/

theorem pow2_eq_zpow (e : Int) : pow2 e = (2 : ℚ) ^ e := by
  unfold pow2
  by_cases h : 0 ≤ e
  · rw [if_pos h]
    conv_rhs => rw [← Int.toNat_of_nonneg h]
    rw [zpow_natCast]
  · rw [if_neg h]
    have h2 : e = -(((-e).toNat : Nat) : Int) := by
      rw [Int.toNat_of_nonneg (by omega)]
      omega
    conv_rhs => rw [h2]
    rw [zpow_neg, zpow_natCast, one_div]

theorem pow2_pos (e : Int) : 0 < pow2 e := by
  rw [pow2_eq_zpow]
  positivity

theorem pow2_add (a b : Int) : pow2 (a + b) = pow2 a * pow2 b := by
  simp only [pow2_eq_zpow]
  exact zpow_add₀ (by norm_num) a b

theorem pow2_le (a b : Int) (h : a ≤ b) : pow2 a ≤ pow2 b := by
  simp only [pow2_eq_zpow]
  exact zpow_le_zpow_right₀ (by norm_num) h

theorem pow2_lt_iff (a b : Int) : pow2 a < pow2 b ↔ a < b := by
  simp only [pow2_eq_zpow]
  exact zpow_lt_zpow_iff_right₀ (by norm_num)

theorem pow2_nat (n : Nat) : pow2 (n : Int) = (2 : ℚ) ^ n := by
  rw [pow2_eq_zpow, zpow_natCast]

theorem ilog2_aux_spec (fuel : Nat) : ∀ n : Nat, n ≤ fuel → 1 ≤ n →
    2 ^ ilog2_aux fuel n ≤ n ∧ n < 2 ^ (ilog2_aux fuel n + 1) := by
  induction fuel with
  | zero => intro n h1 h2; omega
  | succ fuel ih =>
    intro n hn h1
    unfold ilog2_aux
    by_cases h2 : n < 2
    · rw [if_pos h2]
      simp
      omega
    · rw [if_neg h2]
      obtain ⟨ha, hb⟩ := ih (n / 2) (by omega) (by omega)
      rw [pow_succ, pow_succ, pow_succ]
      rw [pow_succ] at hb
      constructor <;> omega

theorem ilog2_spec (n : Nat) (h : 1 ≤ n) : 2 ^ ilog2 n ≤ n ∧ n < 2 ^ (ilog2 n + 1) :=
  ilog2_aux_spec n n (le_refl _) h

theorem binade_spec (a : ℚ) (ha : 0 < a) :
    pow2 (binade a) ≤ a ∧ a < pow2 (binade a + 1) := by
  have hnum : 0 < a.num := Rat.num_pos.mpr ha
  have hN : 1 ≤ a.num.natAbs := by omega
  have hD : 1 ≤ a.den := a.den_pos
  obtain ⟨n1, n2⟩ := ilog2_spec a.num.natAbs hN
  obtain ⟨d1, d2⟩ := ilog2_spec a.den hD
  have hcastN : ((a.num.natAbs : Nat) : ℚ) = (a.num : ℚ) := by
    rw [← Int.cast_natCast, Int.natAbs_of_nonneg (le_of_lt hnum)]
  have ha_eq : a = ((a.num.natAbs : Nat) : ℚ) / ((a.den : Nat) : ℚ) := by
    rw [hcastN]
    exact (Rat.num_div_den a).symm
  have qn1 : (2 : ℚ) ^ ilog2 a.num.natAbs ≤ ((a.num.natAbs : Nat) : ℚ) := by exact_mod_cast n1
  have qn2 : ((a.num.natAbs : Nat) : ℚ) < (2 : ℚ) ^ (ilog2 a.num.natAbs + 1) := by
    exact_mod_cast n2
  have qd1 : (2 : ℚ) ^ ilog2 a.den ≤ ((a.den : Nat) : ℚ) := by exact_mod_cast d1
  have qd2 : ((a.den : Nat) : ℚ) < (2 : ℚ) ^ (ilog2 a.den + 1) := by exact_mod_cast d2
  have hDpos : (0 : ℚ) < ((a.den : Nat) : ℚ) := by exact_mod_cast hD
  have hNpos : (0 : ℚ) < ((a.num.natAbs : Nat) : ℚ) := by exact_mod_cast hN
  have p1 : (0 : ℚ) < (2 : ℚ) ^ ilog2 a.num.natAbs := by positivity
  have p2 : (0 : ℚ) < (2 : ℚ) ^ ilog2 a.den := by positivity
  have e0 : pow2 ((ilog2 a.num.natAbs : Int) - (ilog2 a.den : Int))
      = (2 : ℚ) ^ ilog2 a.num.natAbs / (2 : ℚ) ^ ilog2 a.den := by
    rw [pow2_eq_zpow, zpow_sub₀ (by norm_num), zpow_natCast, zpow_natCast]
  have hup : a < pow2 ((ilog2 a.num.natAbs : Int) - (ilog2 a.den : Int) + 1) := by
    rw [pow2_add, e0]
    have : pow2 1 = 2 := by rw [pow2_eq_zpow]; norm_num
    rw [this, div_mul_eq_mul_div]
    conv_lhs => rw [ha_eq]
    rw [div_lt_div_iff₀ hDpos p2]
    rw [pow_succ] at qn2
    nlinarith
  have hlo : pow2 ((ilog2 a.num.natAbs : Int) - (ilog2 a.den : Int) - 1) ≤ a := by
    have e1 : pow2 ((ilog2 a.num.natAbs : Int) - (ilog2 a.den : Int) - 1)
        = (2 : ℚ) ^ ilog2 a.num.natAbs / (2 : ℚ) ^ (ilog2 a.den + 1) := by
      have : (ilog2 a.num.natAbs : Int) - (ilog2 a.den : Int) - 1
          = (ilog2 a.num.natAbs : Int) - ((ilog2 a.den + 1 : Nat) : Int) := by
        push_cast
        ring
      rw [this, pow2_eq_zpow, zpow_sub₀ (by norm_num), zpow_natCast, zpow_natCast]
    rw [e1]
    conv_rhs => rw [ha_eq]
    rw [div_le_div_iff₀ (by positivity) hDpos]
    rw [pow_succ] at qd2 ⊢
    nlinarith
  unfold binade
  by_cases hc : pow2 ((ilog2 a.num.natAbs : Int) - (ilog2 a.den : Int)) ≤ a
  · rw [if_pos hc]
    exact ⟨hc, hup⟩
  · rw [if_neg hc]
    refine ⟨hlo, ?_⟩
    have : (ilog2 a.num.natAbs : Int) - (ilog2 a.den : Int) - 1 + 1
        = (ilog2 a.num.natAbs : Int) - (ilog2 a.den : Int) := by ring
    rw [this]
    exact lt_of_not_le hc

theorem binade_mono (a b : ℚ) (ha : 0 < a) (hab : a ≤ b) : binade a ≤ binade b := by
  obtain ⟨a1, _⟩ := binade_spec a ha
  obtain ⟨_, b2⟩ := binade_spec b (lt_of_lt_of_le ha hab)
  have : pow2 (binade a) < pow2 (binade b + 1) := lt_of_le_of_lt (le_trans a1 hab) b2
  have := (pow2_lt_iff _ _).mp this
  omega

theorem round_even_cases (x : ℚ) : round_even x = ⌊x⌋ ∨ round_even x = ⌊x⌋ + 1 := by
  unfold round_even
  split
  · left; rfl
  · split
    · right; rfl
    · split
      · left; rfl
      · right; rfl

theorem round_even_int (n : Int) : round_even (n : ℚ) = n := by
  unfold round_even
  simp

theorem le_round_even (n : Int) (x : ℚ) (h : (n : ℚ) ≤ x) : n ≤ round_even x := by
  have hf : n ≤ ⌊x⌋ := Int.le_floor.mpr h
  rcases round_even_cases x with e | e <;> omega

theorem round_even_le (n : Int) (x : ℚ) (h : x ≤ (n : ℚ)) : round_even x ≤ n := by
  rcases lt_or_eq_of_le h with hlt | heq
  · have hf : ⌊x⌋ < n := Int.floor_lt.mpr hlt
    rcases round_even_cases x with e | e <;> omega
  · rw [heq, round_even_int]

theorem round_even_mono (x y : ℚ) (h : x ≤ y) : round_even x ≤ round_even y := by
  have hf : ⌊x⌋ ≤ ⌊y⌋ := Int.floor_le_floor h
  rcases lt_or_eq_of_le hf with hlt | heq
  · rcases round_even_cases x with e | e <;> rcases round_even_cases y with e2 | e2 <;> omega
  · unfold round_even
    rw [← heq]
    have hx : x - (⌊x⌋ : ℚ) ≤ y - (⌊x⌋ : ℚ) := by linarith
    by_cases c1 : x - (⌊x⌋ : ℚ) < 1 / 2
    · rw [if_pos c1]
      split
      · exact le_refl _
      · split
        · omega
        · split <;> omega
    · rw [if_neg c1]
      have d1 : ¬ (y - (⌊x⌋ : ℚ) < 1 / 2) := by
        intro hh
        exact c1 (lt_of_le_of_lt hx hh)
      rw [if_neg d1]
      by_cases c2 : 1 / 2 < x - (⌊x⌋ : ℚ)
      · rw [if_pos c2, if_pos (lt_of_lt_of_le c2 hx)]
      · rw [if_neg c2]
        by_cases d2 : 1 / 2 < y - (⌊x⌋ : ℚ)
        · rw [if_pos d2]
          split <;> omega
        · rw [if_neg d2]

theorem ulp_pos (a : ℚ) : 0 < ulp a := pow2_pos _

theorem round_double_zero : round_double 0 = 0 := by
  unfold round_double
  rw [if_pos rfl]

theorem round_double_of_pos (q : ℚ) (h : 0 < q) :
    round_double q = (round_even (q / ulp q) : ℚ) * ulp q := by
  unfold round_double
  rw [if_neg (ne_of_gt h), if_pos h]

theorem round_double_nonneg (q : ℚ) (h : 0 ≤ q) : 0 ≤ round_double q := by
  rcases lt_or_eq_of_le h with hlt | heq
  · rw [round_double_of_pos q hlt]
    have h0 : (0 : Int) ≤ round_even (q / ulp q) :=
      le_round_even 0 _ (by
        simp only [Int.cast_zero]
        exact div_nonneg h (le_of_lt (ulp_pos q)))
    have : (0 : ℚ) ≤ (round_even (q / ulp q) : ℚ) := by exact_mod_cast h0
    exact mul_nonneg this (le_of_lt (ulp_pos q))
  · rw [← heq, round_double_zero]

theorem pow2_52 : pow2 52 = 4503599627370496 := by
  rw [pow2_eq_zpow]
  norm_num

theorem pow2_53 : pow2 53 = 9007199254740992 := by
  rw [pow2_eq_zpow]
  norm_num

/-- A positive value rounds to at most the top of its binade. -/
theorem round_double_le_top (x : ℚ) (hx : 0 < x) :
    round_double x ≤ pow2 (max (binade x) (-1022) + 1) := by
  rw [round_double_of_pos x hx]
  have hu := ulp_pos x
  have hsplit : pow2 (max (binade x) (-1022) + 1) = pow2 53 * ulp x := by
    unfold ulp
    rw [← pow2_add]
    congr 1
    ring
  have hxlt : x ≤ pow2 (max (binade x) (-1022) + 1) :=
    le_trans (le_of_lt (binade_spec x hx).2) (pow2_le _ _ (by omega))
  have hq : x / ulp x ≤ ((9007199254740992 : Int) : ℚ) := by
    rw [div_le_iff₀ hu]
    rw [hsplit, pow2_53] at hxlt
    exact_mod_cast hxlt
  have hr := round_even_le 9007199254740992 _ hq
  have hr2 : (round_even (x / ulp x) : ℚ) ≤ 9007199254740992 := by exact_mod_cast hr
  rw [hsplit, pow2_53]
  exact mul_le_mul_of_nonneg_right hr2 (le_of_lt hu)

/-- A normal positive value rounds to at least the bottom of its binade. -/
theorem bottom_le_round_double (y : ℚ) (hy : 0 < y) (hn : -1022 ≤ binade y) :
    pow2 (binade y) ≤ round_double y := by
  rw [round_double_of_pos y hy]
  have hu := ulp_pos y
  have hmax : max (binade y) (-1022) = binade y := max_eq_left hn
  have hsplit : pow2 (binade y) = pow2 52 * ulp y := by
    unfold ulp
    rw [hmax, ← pow2_add]
    congr 1
    ring
  have hylo : pow2 (binade y) ≤ y := (binade_spec y hy).1
  have hq : ((4503599627370496 : Int) : ℚ) ≤ y / ulp y := by
    rw [le_div_iff₀ hu]
    rw [hsplit, pow2_52] at hylo
    exact_mod_cast hylo
  have hr := le_round_even 4503599627370496 _ hq
  have hr2 : (4503599627370496 : ℚ) ≤ (round_even (y / ulp y) : ℚ) := by exact_mod_cast hr
  rw [hsplit, pow2_52]
  exact mul_le_mul_of_nonneg_right hr2 (le_of_lt hu)

/-- IEEE rounding is monotone on the non-negative rationals. -/
theorem round_double_mono (x y : ℚ) (hx : 0 ≤ x) (hxy : x ≤ y) :
    round_double x ≤ round_double y := by
  rcases lt_or_eq_of_le hx with hpos | hzero
  · have hy : 0 < y := lt_of_lt_of_le hpos hxy
    have hb := binade_mono x y hpos hxy
    by_cases he : max (binade x) (-1022) = max (binade y) (-1022)
    · have hu : ulp x = ulp y := by
        unfold ulp
        rw [he]
      rw [round_double_of_pos x hpos, round_double_of_pos y hy, hu]
      have hq : x / ulp y ≤ y / ulp y := div_le_div_of_nonneg_right hxy (le_of_lt (ulp_pos y))
      have hr := round_even_mono _ _ hq
      have hr2 : (round_even (x / ulp y) : ℚ) ≤ (round_even (y / ulp y) : ℚ) := by
        exact_mod_cast hr
      exact mul_le_mul_of_nonneg_right hr2 (le_of_lt (ulp_pos y))
    · have hlt : max (binade x) (-1022) < max (binade y) (-1022) := by omega
      have hn : -1022 ≤ binade y := by omega
      have hmax : max (binade y) (-1022) = binade y := max_eq_left hn
      calc round_double x ≤ pow2 (max (binade x) (-1022) + 1) := round_double_le_top x hpos
        _ ≤ pow2 (binade y) := pow2_le _ _ (by omega)
        _ ≤ round_double y := bottom_le_round_double y hy hn
  · rw [← hzero, round_double_zero]
    exact round_double_nonneg y (by rw [← hzero] at hxy; exact hxy)

/-- IEEE rounding is exact on the natural numbers below `2^53`. -/
theorem round_double_nat (n : Nat) (hn : n < 9007199254740992) :
    round_double (n : ℚ) = (n : ℚ) := by
  rcases Nat.eq_zero_or_pos n with h0 | hpos
  · rw [h0]
    simp only [Nat.cast_zero]
    exact round_double_zero
  · have hq : (0 : ℚ) < (n : ℚ) := by exact_mod_cast hpos
    obtain ⟨b1, b2⟩ := binade_spec (n : ℚ) hq
    have hb0 : 0 ≤ binade (n : ℚ) := by
      have h1 : pow2 0 ≤ (n : ℚ) := by
        rw [pow2_eq_zpow]
        simp only [zpow_zero]
        exact_mod_cast hpos
      have := (pow2_lt_iff _ _).mp (lt_of_le_of_lt h1 b2)
      omega
    have hb53 : binade (n : ℚ) < 53 := by
      have h1 : (n : ℚ) < pow2 53 := by
        rw [pow2_53]
        exact_mod_cast hn
      exact (pow2_lt_iff _ _).mp (lt_of_le_of_lt b1 h1)
    have hmax : max (binade (n : ℚ)) (-1022) = binade (n : ℚ) := max_eq_left (by omega)
    have hm : ((52 - binade (n : ℚ)).toNat : Int) = 52 - binade (n : ℚ) :=
      Int.toNat_of_nonneg (by omega)
    have hinv : ulp (n : ℚ) * (2 : ℚ) ^ (52 - binade (n : ℚ)).toNat = 1 := by
      unfold ulp
      rw [hmax, ← pow2_nat, hm, ← pow2_add]
      have : binade (n : ℚ) - 52 + (52 - binade (n : ℚ)) = 0 := by ring
      rw [this, pow2_eq_zpow]
      simp
    have hu := ulp_pos (n : ℚ)
    have hdiv : (n : ℚ) / ulp (n : ℚ)
        = (((n * 2 ^ (52 - binade (n : ℚ)).toNat : Nat) : Int) : ℚ) := by
      rw [div_eq_iff (ne_of_gt hu)]
      push_cast
      rw [mul_assoc, mul_comm ((2 : ℚ) ^ (52 - binade (n : ℚ)).toNat) (ulp (n : ℚ)), hinv,
        mul_one]
    rw [round_double_of_pos _ hq, hdiv, round_even_int]
    push_cast
    rw [mul_assoc, mul_comm ((2 : ℚ) ^ (52 - binade (n : ℚ)).toNat) (ulp (n : ℚ)), hinv, mul_one]

/-! ## Cells of the machine model -/

/-- The cell of a matrix of size 1 after the machine call
`update_matrix(M, 0, 0)`. -/
theorem size_one_update (fl : ℚ → ℚ) (M : Markov) (hsz : M.size = 1)
    (hsh : shaped 1 M.matrix) :
    rd (update_matrix_m fl M 0 0).2.matrix 0 0 =
      fl (fl (fl (rd M.matrix 0 0 * ((rdH M.helper 0 : Int) : ℚ)) + 1)
        / ((wrap32 (rdH M.helper 0 + 1) : Int) : ℚ)) := by
  rw [update_matrix_m_ok fl M 0 0 (le_refl _) (by omega) (le_refl _) (by omega)]
  have hn : M.size.toNat = 1 := by rw [hsz]; rfl
  simp only [hn, Int.toNat_zero]
  rw [update_loop_m_row fl 0 0 _ M.matrix (by rw [hsh.1]; exact Nat.one_pos) 1
    (by rw [hsh.2 0 Nat.one_pos]) 0]
  simp

/-- On a matrix of size 1, as long as the counter has not overflowed, the
only cell is 1 after the first call: the counts stay exact under a rounding
that is exact on them. -/
theorem ones_run (fl : ℚ → ℚ) (hfix : ∀ n : Nat, n ≤ 2147483648 → fl (n : ℚ) = (n : ℚ))
    (n : Nat) (hn : n ≤ 2147483647) :
    rd (run_updates_m fl (initialize_M 1) (List.replicate n (0, 0))).matrix 0 0
      = if n = 0 then 0 else 1 := by
  induction n with
  | zero =>
    have : run_updates_m fl (initialize_M 1) (List.replicate 0 (0, 0)) = initialize_M 1 := rfl
    rw [this, rd_fresh]
    simp
  | succ n ih =>
    have ih2 := ih (by omega)
    have hr : in_range 1 (List.replicate n (0, 0)) := by
      intro c hc
      rw [List.eq_of_mem_replicate hc]
      decide
    obtain ⟨hsz, hsh, _, hh⟩ := machine_inv_run fl 1 (List.replicate n (0, 0)) hr
    have hhelper : rdH (run_updates_m fl (initialize_M 1) (List.replicate n (0, 0))).helper 0
        = (n : Int) := by
      have := hh 0 (by decide)
      simp only [Nat.cast_zero] at this
      rw [this, count_src_replicate]
      exact wrap32_id _ (by omega) (by omega)
    rw [List.replicate_succ', run_updates_m_snoc]
    simp only
    rw [size_one_update fl _ hsz hsh, hhelper, ih2, wrap32_id _ (by omega) (by omega)]
    have hx : (if n = 0 then (0 : ℚ) else 1) * ((n : Int) : ℚ) = ((n : Nat) : ℚ) := by
      by_cases h0 : n = 0
      · simp [h0]
      · simp [h0]
    rw [hx, hfix n (by omega)]
    have h1 : ((n : Nat) : ℚ) + 1 = ((n + 1 : Nat) : ℚ) := by push_cast; ring
    rw [h1, hfix (n + 1) (by omega)]
    have h2 : (((n : Int) + 1 : Int) : ℚ) = ((n + 1 : Nat) : ℚ) := by push_cast; ring
    rw [h2]
    have hne : ((n + 1 : Nat) : ℚ) ≠ 0 := by
      have : (n + 1 : Nat) ≠ 0 := by omega
      exact_mod_cast this
    rw [div_self hne]
    have := hfix 1 (by omega)
    simp only [Nat.cast_one] at this
    rw [this]
    simp

/-- Counterexample for C18: after `2^31` in-range calls `update_matrix(M, 0, 0)`
on a fresh matrix of size 1, with IEEE rounding, the cell `matrix[0][0]` is
`-1`: at the last call `alpha + 1` has wrapped to `-2^31`. -/
theorem cell_negative_after_overflow :
    in_range 1 (List.replicate 2147483648 (0, 0)) ∧
    rd (run_updates_m round_double (initialize_M 1)
      (List.replicate 2147483648 (0, 0))).matrix 0 0 = -1 := by
  constructor
  · intro c hc
    rw [List.eq_of_mem_replicate hc]
    decide
  · have hfix : ∀ n : Nat, n ≤ 2147483648 → round_double (n : ℚ) = (n : ℚ) :=
      fun n hn => round_double_nat n (by omega)
    have hr : in_range 1 (List.replicate 2147483647 (0, 0)) := by
      intro c hc
      rw [List.eq_of_mem_replicate hc]
      decide
    obtain ⟨hsz, hsh, _, hh⟩ :=
      machine_inv_run round_double 1 (List.replicate 2147483647 (0, 0)) hr
    have hhelper : rdH (run_updates_m round_double (initialize_M 1)
        (List.replicate 2147483647 (0, 0))).helper 0 = 2147483647 := by
      have := hh 0 (by decide)
      simp only [Nat.cast_zero] at this
      rw [this, count_src_replicate]
      decide
    have hcell := ones_run round_double hfix 2147483647 (le_refl _)
    have hsplit : List.replicate 2147483648 ((0 : Int), (0 : Int))
        = List.replicate 2147483647 (0, 0) ++ [(0, 0)] :=
      List.replicate_succ' 2147483647 (0, 0)
    rw [hsplit, run_updates_m_snoc]
    simp only
    rw [size_one_update round_double _ hsz hsh, hhelper, hcell]
    have hw : wrap32 (2147483647 + 1) = -2147483648 := by decide
    rw [hw]
    have e1 : (if (2147483647 : Nat) = 0 then (0 : ℚ) else 1) * ((2147483647 : Int) : ℚ)
        = ((2147483647 : Nat) : ℚ) := by norm_num
    rw [e1, hfix 2147483647 (by omega)]
    have e2 : ((2147483647 : Nat) : ℚ) + 1 = ((2147483648 : Nat) : ℚ) := by norm_num
    rw [e2, hfix 2147483648 (by omega)]
    have e3 : ((2147483648 : Nat) : ℚ) / ((-2147483648 : Int) : ℚ) = -1 := by norm_num
    rw [e3]
    with_unfolding_all decide

/-- C18 (amended): in a matrix reached on the machine from
`initialize_M(size)` by in-range `update_matrix` calls of which at most
`2^31 - 1` have each source row (no counter overflow), every cell lies
between 0 and 1, for every rounding `fl` of the `double` operations that is
monotone on the non-negative rationals and exact on the integers up to
`2^31 - 1`, as exact arithmetic and IEEE-754 rounding are. -/
theorem cells_in_unit_interval_m (fl : ℚ → ℚ)
    (hmono : ∀ x y : ℚ, 0 ≤ x → x ≤ y → fl x ≤ fl y)
    (hfix : ∀ n : Nat, n ≤ 2147483647 → fl (n : ℚ) = (n : ℚ)) (size : Int)
    (calls : List (Int × Int)) (hr : in_range size calls)
    (hb : ∀ r : Int, count_src calls r ≤ 2147483647) (i k : Nat) (hi : (i : Int) < size)
    (hk : (k : Int) < size) :
    0 ≤ rd (run_updates_m fl (initialize_M size) calls).matrix i k ∧
    rd (run_updates_m fl (initialize_M size) calls).matrix i k ≤ 1 :=
  unit_cells_run fl hmono hfix size calls hr hb i k (by omega) (by omega)

theorem count_src_le_length (calls : List (Int × Int)) (r : Int) :
    count_src calls r ≤ calls.length := by
  unfold count_src
  exact List.countP_le_length _

/-- Witness for C18 (amended): IEEE rounding meets the two conditions, and a
cell after three calls on a size-2 matrix. -/
theorem cells_in_unit_interval_m_witness :
    (∀ x y : ℚ, 0 ≤ x → x ≤ y → round_double x ≤ round_double y) ∧
    (∀ n : Nat, n ≤ 2147483647 → round_double (n : ℚ) = (n : ℚ)) ∧
    in_range 2 [(0, 1), (1, 0), (0, 0)] ∧
    (∀ r : Int, count_src [(0, 1), (1, 0), (0, 0)] r ≤ 2147483647) ∧
    ((0 : Nat) : Int) < 2 ∧ ((1 : Nat) : Int) < 2 ∧
    (0 ≤ rd (run_updates_m round_double (initialize_M 2) [(0, 1), (1, 0), (0, 0)]).matrix 0 1 ∧
     rd (run_updates_m round_double (initialize_M 2) [(0, 1), (1, 0), (0, 0)]).matrix 0 1 ≤ 1) :=
  ⟨round_double_mono, fun n hn => round_double_nat n (by omega), by decide,
   fun r => le_trans (count_src_le_length _ r) (by decide), by decide, by decide,
   cells_in_unit_interval_m round_double round_double_mono
    (fun n hn => round_double_nat n (by omega)) 2 [(0, 1), (1, 0), (0, 0)] (by decide)
    (fun r => le_trans (count_src_le_length _ r) (by decide)) 0 1 (by decide) (by decide)⟩

/-! ## Extrema and counts on the machine -/

/-- With exact cells and a counter that does not overflow at this call, the
machine `update_matrix` is the exact one. -/
theorem update_matrix_m_id (M : Markov) (i j : Int)
    (h : wrap32 (rdH M.helper i.toNat + 1) = rdH M.helper i.toNat + 1) :
    update_matrix_m id M i j = update_matrix M i j := by
  have hb : update_body_m id i.toNat j (rdH M.helper i.toNat)
      = update_body i.toNat j (rdH M.helper i.toNat) := by
    funext k m
    simp only [update_body_m, update_body, id_eq, h]
  simp only [update_matrix_m, update_matrix, hb, h]

/-- With exact cells and at most `2^31 - 1` calls per source row the machine
reaches the matrix of the exact model. -/
theorem run_updates_m_exact (size : Int) (calls : List (Int × Int))
    (hr : in_range size calls) (hb : ∀ r : Int, count_src calls r ≤ 2147483647) :
    run_updates_m id (initialize_M size) calls = run_updates (initialize_M size) calls := by
  induction calls using List.reverseRecOn with
  | nil => rfl
  | append_singleton l c ih =>
    have hl : in_range size l := fun x hx => hr x (List.mem_append_left _ hx)
    have hbl : ∀ r : Int, count_src l r ≤ 2147483647 :=
      fun r => le_trans (count_src_le_snoc l c r) (hb r)
    obtain ⟨hi0, hi, _, _⟩ := hr c (by simp)
    rw [run_updates_m_snoc, run_updates_snoc, ih hl hbl]
    obtain ⟨_, _, _, hh, _⟩ := counts_inv_run size l hl
    have hcnt : count_src l c.1 + 1 ≤ 2147483647 := by
      have := hb c.1
      rw [count_src_snoc] at this
      simpa using this
    have hhelper : rdH (run_updates (initialize_M size) l).helper c.1.toNat
        = ((count_src l c.1 : Nat) : Int) := by
      rw [hh c.1.toNat (by omega), Int.toNat_of_nonneg hi0]
    rw [update_matrix_m_id _ c.1 c.2 (by rw [hhelper]; exact wrap32_id _ (by omega) (by omega))]

set_option maxRecDepth 100000 in
/-- Counterexample for C19: after fourteen transitions 0 → 1 and fourteen
transitions 0 → 0 on a fresh matrix of size 2, with IEEE rounding, columns 0
and 1 of row 0 have the same count 14, so the lowest-index column with the
largest count is 0; but the cells are `1/2` and `1/2 + 2^-53`, and
`max_prob_idx(M, 0)` returns 1. -/
theorem extrema_miss_counts_rounded :
    in_range 2 tie_calls ∧ (∃ c ∈ tie_calls, c.1 = (0 : Int)) ∧
    count_pair tie_calls 0 0 = 14 ∧ count_pair tie_calls 0 1 = 14 ∧
    rd (run_updates_m round_double (initialize_M 2) tie_calls).matrix 0 0 = 1 / 2 ∧
    (rd (run_updates_m round_double (initialize_M 2) tie_calls).matrix 0 1).num
      = 4503599627370497 ∧
    (rd (run_updates_m round_double (initialize_M 2) tie_calls).matrix 0 1).den
      = 9007199254740992 ∧
    (max_prob_idx (run_updates_m round_double (initialize_M 2) tie_calls) 0).1 = 1 := by
  refine ⟨by decide, by decide, by decide, by decide, ?_, ?_, ?_, ?_⟩ <;>
    with_unfolding_all decide

/-- C19 (amended): over exact arithmetic on the cells (no rounding) and with
at most `2^31 - 1` calls per source row (no counter overflow), after in-range
calls on a fresh matrix, for a row `i` updated at least once,
`max_prob_idx(M, i)` is the lowest-index column with the largest number of
recorded transitions out of `i`, and `min_prob_idx(M, i)` the lowest-index
column with the fewest. -/
theorem extrema_follow_counts_exact (size : Int) (calls : List (Int × Int))
    (hr : in_range size calls) (hb : ∀ r : Int, count_src calls r ≤ 2147483647) (i : Nat)
    (hi : (i : Int) < size) (hsrc : ∃ c ∈ calls, c.1 = (i : Int)) :
    (0 ≤ (max_prob_idx (run_updates_m id (initialize_M size) calls) i).1 ∧
     (max_prob_idx (run_updates_m id (initialize_M size) calls) i).1 < size ∧
     (∀ k : Nat, (k : Int) < size →
       count_pair calls i k
         ≤ count_pair calls i (max_prob_idx (run_updates_m id (initialize_M size) calls) i).1) ∧
     (∀ k : Nat, (k : Int) < (max_prob_idx (run_updates_m id (initialize_M size) calls) i).1 →
       count_pair calls i k
         < count_pair calls i (max_prob_idx (run_updates_m id (initialize_M size) calls) i).1)) ∧
    (0 ≤ (min_prob_idx (run_updates_m id (initialize_M size) calls) i).1 ∧
     (min_prob_idx (run_updates_m id (initialize_M size) calls) i).1 < size ∧
     (∀ k : Nat, (k : Int) < size →
       count_pair calls i (min_prob_idx (run_updates_m id (initialize_M size) calls) i).1
         ≤ count_pair calls i k) ∧
     (∀ k : Nat, (k : Int) < (min_prob_idx (run_updates_m id (initialize_M size) calls) i).1 →
       count_pair calls i (min_prob_idx (run_updates_m id (initialize_M size) calls) i).1
         < count_pair calls i k)) := by
  rw [run_updates_m_exact size calls hr hb]
  exact extrema_follow_counts size calls hr i hi hsrc

/-- Witness for C19 (amended): row 0 after the calls `(0,1), (0,2), (0,1)` on
a size-3 matrix with exact cells: column 1 was the target twice, column 0
never. -/
theorem extrema_follow_counts_exact_witness :
    in_range 3 [(0, 1), (0, 2), (0, 1)] ∧
    (∀ r : Int, count_src [(0, 1), (0, 2), (0, 1)] r ≤ 2147483647) ∧
    ((0 : Nat) : Int) < 3 ∧
    (∃ c ∈ [((0 : Int), (1 : Int)), (0, 2), (0, 1)], c.1 = ((0 : Nat) : Int)) ∧
    (max_prob_idx (run_updates_m id (initialize_M 3) [(0, 1), (0, 2), (0, 1)]) 0).1 = 1 ∧
    (min_prob_idx (run_updates_m id (initialize_M 3) [(0, 1), (0, 2), (0, 1)]) 0).1 = 0 ∧
    (0 ≤ (max_prob_idx (run_updates_m id (initialize_M 3) [(0, 1), (0, 2), (0, 1)])
      ((0 : Nat) : Int)).1) :=
  ⟨by decide, fun r => le_trans (count_src_le_length _ r) (by decide), by decide, by decide,
   by with_unfolding_all decide, by with_unfolding_all decide,
   (extrema_follow_counts_exact 3 [(0, 1), (0, 2), (0, 1)] (by decide)
    (fun r => le_trans (count_src_le_length _ r) (by decide)) 0 (by decide)
    (by decide)).1.1⟩

end MarkovLib
